import Mathlib

/-!
Verification of the price-estimation core (`calc_price` and its inner
subroutine `fco`) of `tests/gen_vectors.py`.

Modelling conventions, used throughout:

* Python floats are modelled as exact rationals (`ℚ`).  Every arithmetic
  step of the source is mirrored with exact rational arithmetic; decimal
  literals of the source are read as exact decimal fractions.
* A raw transaction-output value `a` is a positive real.  The histogram
  builder only ever uses `a` through `log10 a` and through order
  comparisons with the bin edges `10^(-6 + k/200)` (`k = 0, …, 2399`),
  which are order-isomorphic to comparisons of `log10 a` with the
  log-space edges `(k)/200 - 6`.  A raw output is therefore carried as a
  pair `RawVal`: its value `val` (used by the denomination voter) and its
  exact base-10 logarithm `lpos` (used by the histogram builder).  The
  transcendental link `lpos = log10 val` is never needed by any claim.
* The smooth Gaussian shape kernel `ss` of the source is built from
  `exp`, which has no exact rational value; the model takes it as an
  arbitrary rational-valued parameter `ssK`.  The surcharge kernel `sp`
  is a table of decimal literals and is modelled exactly.
* The value-space bin array `bins` (needed by the shift detector as
  `bins[cp+bsl]`, a transcendental `10^(-6+(k-1)/200)`) is likewise an
  arbitrary parameter `binVal : ℤ → ℚ`; the facts the proofs need about
  it (positivity, and `binVal k ≤ 1` for `k ≤ 802`, true of the real
  edges since `10^(-6+801/200) < 1`) are stated as hypotheses.
* Fallible Python arithmetic is modelled with `Option`: a division whose
  Python counterpart can raise `ZeroDivisionError` goes through `pydiv`,
  and list indexing that can raise `IndexError` (the forward scan of the
  histogram builder running off the edge array) yields `none`.
  Python `int(x)` truncation toward zero is `ratTrunc`.
* Python's negative-index wraparound (`bins[-k]`) is not modelled; the
  scan reports `none` for a negative start index.  This can only happen
  for inputs far below the 12-decade domain, which no claim concerns.
-/

set_option maxRecDepth 2000

namespace PocketOracle

/-- Python `int(x)`: truncation of a rational toward zero. -/
def ratTrunc (q : ℚ) : ℤ := q.num.tdiv q.den

/-- Python float division: raises `ZeroDivisionError` on a zero
denominator, modelled as `none`. -/
def pydiv (a b : ℚ) : Option ℚ := if b = 0 then none else some (a / b)

/-- A raw transaction-output value: its numeric value and its exact
base-10 logarithm (see the module docstring). -/
structure RawVal where
  val : ℚ
  lpos : ℚ

/-! ## Histogram builder (source lines 39–46)

`bins = [0] ++ [10^(ex + b/200) | ex in -6..5, b in 0..199]`, so
`bins[k] = 10^(-6 + (k-1)/200)` for `k ≥ 1` and `bins[0] = 0`; the
total length is `nb = 2401`.  In log space, `bins[k] ≤ a` iff `k = 0`
or `(k-1)/200 - 6 ≤ log10 a`. -/

/-- `bins[k] ≤ a`, expressed in log space (`t = log10 a`). -/
def edgeLe (k : ℤ) (t : ℚ) : Prop := k = 0 ∨ ((k : ℚ) - 1) / 200 - 6 ≤ t

instance (k : ℤ) (t : ℚ) : Decidable (edgeLe k t) := by
  unfold edgeLe; infer_instance

/-- The forward scan `while bins[be] <= a: be += 1` (source line 45).
Reading `bins[be]` with `be ≥ 2401` raises `IndexError` (`none`); a
negative index is likewise reported as `none` (see module docstring).
The fuel `2402` suffices for every run that Python completes. -/
def binScan (t : ℚ) : ℕ → ℤ → Option ℤ
  | 0, _ => none
  | fuel + 1, be =>
    if be < 0 ∨ 2401 ≤ be then none
    else if edgeLe be t then binScan t fuel (be + 1)
    else some be

/-- Source line 44: `al = log10(a); p = (al-(-6))/12.0; be = int(p*nb)`,
then the forward scan; the returned index is the first `be` with
`bins[be] > a`.  Takes the exact log `t = log10 a`. -/
def binOf (t : ℚ) : Option ℤ :=
  binScan t 2402 (ratTrunc ((t - (-6)) / 12 * 2401))

/-- One step of the binning loop (source lines 43–46): resolve the bin
of one raw value and increment `bc[be-1]` by `1.0`. -/
def histStep (bc : ℤ → ℚ) (v : RawVal) : Option (ℤ → ℚ) :=
  (binOf v.lpos).map (fun be => Function.update bc (be - 1) (bc (be - 1) + 1))

/-- The bin-count array produced from the raw outputs (source lines
42–46), starting from `bc = [0.0]*nb`. -/
def buildHist (raw : List RawVal) : Option (ℤ → ℚ) :=
  raw.foldlM histStep (fun _ => 0)

/-! ## Histogram conditioner (source lines 48–56) -/

/-- `for n in range(201): bc[n]=0` and `for n in range(1601,nb): bc[n]=0`
(source lines 49–50): zero the two tail regions, keeping the core
window `[201, 1601)`. -/
def zeroTails (bc : ℤ → ℚ) : ℤ → ℚ :=
  fun n => if n < 201 ∨ 1601 ≤ n then 0 else bc n

/-- The 18 structurally deficient bin indices of source line 51. -/
def repairIdx : List ℤ :=
  [201, 401, 461, 496, 540, 601, 661, 696, 740, 801,
   861, 896, 940, 1001, 1061, 1096, 1140, 1201]

/-- One repair step of source line 52: `bc[r] = 0.5*(bc[r+1]+bc[r-1])`. -/
def repairStep (g : ℤ → ℚ) (r : ℤ) : ℤ → ℚ :=
  Function.update g r (0.5 * (g (r + 1) + g (r - 1)))

/-- Source line 52, applied sequentially in list order. -/
def repairBins (f : ℤ → ℚ) : ℤ → ℚ :=
  repairIdx.foldl repairStep f

/-- The conditioned window function and the recorded pre-normalization
window sum `cs` (source lines 53–56).  Python divides each window bin by
`cs` and would raise `ZeroDivisionError` when `cs` is `0`, hence the
`Option`; the cap `if bc[n] > 0.008: bc[n] = 0.008` is applied inside
the same loop, right after the division of that bin. -/
def condition (bc : ℤ → ℚ) : Option ((ℤ → ℚ) × ℚ) :=
  let rep := repairBins (zeroTails bc)
  let cs := (Finset.Ico (201 : ℤ) 1601).sum rep
  if cs = 0 then none
  else some
    (fun n => if 201 ≤ n ∧ n < 1601 then
        (let x := rep n / cs; if x > 0.008 then 0.008 else x)
      else rep n, cs)

/-! ## Shift detector (source lines 58–91)

`ne = 803`, `cp = 601`, `hs = (803+1)//2 = 402`, `lp = cp - hs = 199`,
`rp = cp + hs = 1003`.  The smooth kernel `ss` is the parameter `ssK`
(see module docstring); the surcharge kernel `sp` is the exact table
below. -/

/-- The sparse surcharge kernel assignments of source lines 61–71. -/
def spPairs : List (ℕ × ℚ) :=
  [(40, 0.001300198324984352), (141, 0.001676746949820743),
   (201, 0.003468805546942046), (202, 0.001991977522512513),
   (236, 0.001905066647961839), (261, 0.003341772718156079),
   (262, 0.002588902624584287), (296, 0.002577893841190244),
   (297, 0.002733728814200412), (340, 0.003076117748975647),
   (341, 0.005613067550103145), (342, 0.003088253178535568),
   (400, 0.002918457489366139), (401, 0.006174500465286022),
   (402, 0.004417068070043504), (403, 0.002628663628020371),
   (436, 0.002858828161543839), (461, 0.004097463611984264),
   (462, 0.003345917406120509), (496, 0.002521467726855856),
   (497, 0.002784125730361008), (541, 0.003792850444811335),
   (601, 0.003688240815848247), (602, 0.002392400117402263),
   (636, 0.001280993059008106), (661, 0.001654665137536031),
   (662, 0.001395501347054946), (741, 0.001154279140906312),
   (801, 0.000832244504868709)]

/-- `sp[n]`: the surcharge kernel, `0` outside the assigned positions
(`sp=[0.0]*ne` on source line 60). -/
def sp (n : ℕ) : ℚ := (spPairs.lookup n).getD 0

/-- The shift-weighted score of one shift `sl` (source lines 76–78):
`sss = Σ bc[lp+sl+n]*ss[n]`, `sco = Σ bc[lp+sl+n]*sp[n]`, and
`if sl < 150: sco += sss*0.65`. -/
def scoreAt (dens : ℤ → ℚ) (ssK : ℕ → ℚ) (sl : ℤ) : ℚ :=
  let sss := (Finset.range 803).sum (fun n => dens (199 + sl + n) * ssK n)
  let sco := (Finset.range 803).sum (fun n => dens (199 + sl + n) * sp n)
  if sl < 150 then sco + sss * 0.65 else sco

/-- `range(-141, 201)`: the shift search list of source line 75. -/
def slList : List ℤ := List.map (fun (k : ℕ) => (k : ℤ) - 141) (List.range 342)

/-- One iteration of the score loop over state `(bsl, bss, ts)` (source
lines 76–80): `if sco > bss: bss = sco; bsl = sl` then `ts += sco`. -/
def detStep (dens : ℤ → ℚ) (ssK : ℕ → ℚ) (st : ℤ × ℚ × ℚ) (sl : ℤ) : ℤ × ℚ × ℚ :=
  let c := scoreAt dens ssK sl
  if st.2.1 < c then (sl, c, st.2.2 + c) else (st.1, st.2.1, st.2.2 + c)

/-- The full score loop (source lines 74–80), from
`bsl=0; bss=0.0; ts=0.0`. -/
def detFold (dens : ℤ → ℚ) (ssK : ℕ → ℚ) : ℤ × ℚ × ℚ :=
  slList.foldl (detStep dens ssK) (0, 0, 0)

/-- `nus = Σ bc[lp+bsl+1+n]*sp[n]` (source lines 83–84); the analogous
`nds` uses `bsl-1` (source lines 85–86). -/
def neighborScore (dens : ℤ → ℚ) (bsl : ℤ) : ℚ :=
  (Finset.range 803).sum (fun n => dens (199 + bsl + n) * sp n)

/-- Source line 87: `bn2 = -1 if nds > nus else 1` (so on an exact tie
the `+1` neighbor is chosen). -/
def bn2of (nus nds : ℚ) : ℤ := if nus < nds then -1 else 1

/-- The shift detector (source lines 58–91), producing the rough price
`int(w1*bu1 + w2*bu2)`.  `binVal k` models the transcendental
`bins[k]`; `pydiv` marks the divisions `100.0/u1`, `100.0/u2`,
`a1/(a1+a2)` and `a2/(a1+a2)` that Python can fail on.  `avs` divides
by the constant `201-(-141) = 342`, which cannot raise. -/
def detector (dens : ℤ → ℚ) (ssK : ℕ → ℚ) (binVal : ℤ → ℚ) : Option ℤ :=
  let st := detFold dens ssK
  let bsl := st.1
  let bss := st.2.1
  let ts := st.2.2
  let u1 := binVal (601 + bsl)
  do
  let bu1 ← pydiv 100 u1
  let nus := neighborScore dens (bsl + 1)
  let nds := neighborScore dens (bsl - 1)
  let bn2 := bn2of nus nds
  let ns := max nus nds
  let u2 := binVal (601 + bsl + bn2)
  let bu2 ← pydiv 100 u2
  let avs := ts / 342
  let a1 := bss - avs
  let a2 := |ns - avs|
  let w1 ← pydiv a1 (a1 + a2)
  let w2 ← pydiv a2 (a1 + a2)
  pure (ratTrunc (w1 * bu1 + w2 * bu2))

/-! ## Denomination voter (source lines 93–115) -/

/-- `usds = [5,10,15,20,25,30,40,50,100,150,200,300,500,1000]`. -/
def usds : List ℚ := [5, 10, 15, 20, 25, 30, 40, 50, 100, 150, 200, 300, 500, 1000]

/-- The round-BTC ladder construction of source lines 95–104: append
`ii` and step by `step` while `ii < stop`.  In exact arithmetic a fuel
of `100` covers every decade (at most `90` steps each). -/
def ladder (step stop : ℚ) : ℕ → ℚ → List ℚ
  | 0, _ => []
  | fuel + 1, ii => if ii < stop then ii :: ladder step stop fuel (ii + step) else []

/-- The full round-BTC reference list `mr` (source lines 94–104). -/
def mr : List ℚ :=
  ladder 0.00001 0.0001 100 0.00005 ++ ladder 0.00001 0.001 100 0.0001 ++
  ladder 0.0001 0.01 100 0.001 ++ ladder 0.001 0.1 100 0.01 ++
  ladder 0.01 1.0 100 0.1

/-- Source lines 113–114 with `pmr = 0.0001`: is `n` within the 0.01%
relative tolerance of some round-BTC reference point? -/
def roundHit (n : ℚ) : Bool :=
  mr.any (fun r => decide (r - 0.0001 * r < n) && decide (n < r + 0.0001 * r))

/-- The vote of one `(value, denomination)` pair (source lines 109–115),
with `prw = 0.25`: inside the band `(av - prw*av, av + prw*av)` around
`av = u/rough` and not a round hit, the pair contributes `u/n`.
The division `u/n` can never divide by zero when it is reached: for
`rough > 0` the band forces `n > dn > 0`, and for `rough < 0` the band
`(dn, up)` is empty; `rough = 0` is guarded in `voterOp`. -/
def voteOne (rough : ℤ) (n u : ℚ) : Option ℚ :=
  let av := u / (rough : ℚ)
  let up := av + 0.25 * av
  let dn := av - 0.25 * av
  if dn < n ∧ n < up then (if roundHit n then none else some (u / n)) else none

/-- The candidate-price multiset `op` (source lines 107–115).  Python
computes `av = u/rough` and raises `ZeroDivisionError` when
`rough = 0`, hence the guard. -/
def voterOp (rough : ℤ) (vals : List ℚ) : Option (List ℚ) :=
  if rough = 0 then none
  else some (vals.flatMap (fun n => usds.filterMap (fun u => voteOne rough n u)))

/-! ## Deviation-minimizing refiner (source lines 117–139) -/

/-- The filtered, ascending-sorted window of candidate prices
(source line 118): `f = sorted([p for p in prices if p>pmin and p<pmax])`. -/
def fcoFilter (prices : List ℚ) (pmin pmax : ℚ) : List ℚ :=
  List.insertionSort (· ≤ ·) (prices.filter (fun p => decide (pmin < p) && decide (p < pmax)))

/-- `ps[i]`, the running prefix sum after adding `f[0..i]` (source
lines 120–121). -/
def psum (f : List ℚ) (i : ℕ) : ℚ := (Finset.range (i + 1)).sum (fun j => f.getD j 0)

/-- The total `t` of the filtered window (the final running sum of
source line 121). -/
def tsum (f : List ℚ) : ℚ := (Finset.range f.length).sum (fun j => f.getD j 0)

/-- The deviation score of index `i` (source lines 124–125):
`d = (f[i]*i - ls) + (rs - f[i]*(nn-i-1))` with `ls = ps[i-1]` (or `0`
when `i = 0`) and `rs = t - ps[i]`. -/
def dval (f : List ℚ) (i : ℕ) : ℚ :=
  (f.getD i 0 * i - (if 0 < i then psum f (i - 1) else 0)) +
    ((tsum f - psum f i) - f.getD i 0 * ((f.length - i - 1 : ℕ) : ℚ))

/-- Is `d` below the running minimum?  `none` is the initial
`md = float('inf')` of source line 122. -/
def ltMin (d : ℚ) : Option ℚ → Bool
  | none => true
  | some m => decide (d < m)

/-- One iteration of the arg-min scan of source lines 123–126:
`if d < md: md = d; bi = i`. -/
def scanStep (f : List ℚ) (st : Option ℚ × ℕ) (i : ℕ) : Option ℚ × ℕ :=
  if ltMin (dval f i) st.1 then (some (dval f i), i) else st

/-- The arg-min scan of source lines 122–126 over `(md, bi)`, from
`md = float('inf')` (`none`) and `bi = 0`. -/
def fcoScan (f : List ℚ) : Option ℚ × ℕ :=
  (List.range f.length).foldl (scanStep f) (none, 0)

/-- The chosen index `bi` of the split subroutine. -/
def fcoBi (f : List ℚ) : ℕ := (fcoScan f).2

/-- The split subroutine `fco` (source lines 117–129): on an empty
filtered window return `(float(rough), 0.0)`; otherwise return the
deviation-minimizing point `bo = f[bi]` and the median absolute
deviation of the window around it. -/
def fco (rough : ℤ) (prices : List ℚ) (pmin pmax : ℚ) : ℚ × ℚ :=
  let f := fcoFilter prices pmin pmax
  if f.length = 0 then ((rough : ℚ), 0)
  else
    let bo := f.getD (fcoBi f) 0
    let dv := List.insertionSort (· ≤ ·) (f.map (fun p => |p - bo|))
    let m := dv.length
    let mad := if m % 2 = 0 then (dv.getD (m / 2 - 1) 0 + dv.getD (m / 2) 0) / 2
               else dv.getD (m / 2) 0
    (bo, mad)

/-- The refinement loop body (source lines 133–137), with `prt = 0.05`:
recompute the ±5% window around the previous split result, re-run the
split, and stop at the first exact repeat of a previously seen result.
The fuel is the loop bound `range(100)`. -/
def refineGo (rough : ℤ) (op : List ℚ) : ℕ → ℚ → List ℚ → ℚ
  | 0, cp2, _ => cp2
  | fuel + 1, cp2, avset =>
    let np2 := (fco rough op (cp2 - 0.05 * cp2) (cp2 + 0.05 * cp2)).1
    if np2 ∈ avset then np2
    else refineGo rough op fuel np2 (np2 :: avset)

/-- The first split result `cp2` (source lines 131–132), from the ±5%
window around the rough price. -/
def refineInit (rough : ℤ) (op : List ℚ) : ℚ :=
  (fco rough op ((rough : ℚ) - 0.05 * (rough : ℚ)) ((rough : ℚ) + 0.05 * (rough : ℚ))).1

/-- The final (still rational) split value of the refinement stage
(source lines 131–137), starting from `avset = {cp2}`. -/
def refineLast (rough : ℤ) (op : List ℚ) : ℚ :=
  refineGo rough op 100 (refineInit rough op) [refineInit rough op]

/-- The split-result sequence of the refinement stage: `seq 0` is the
first split (window around the rough price) and `seq (n+1)` re-splits
the ±5% window around `seq n`. -/
def refineSeq (rough : ℤ) (op : List ℚ) : ℕ → ℚ
  | 0 => refineInit rough op
  | n + 1 =>
    let c := refineSeq rough op n
    (fco rough op (c - 0.05 * c) (c + 0.05 * c)).1

/-! ## The assembled `calc_price` (source lines 37–139) -/

/-- `calc_price` (source lines 37–139): returns
`(int(cp2), rough, len(op), s5sum, cs)`, or `none` where Python raises.
`s5sum = sum(bc)` is computed on source line 48, before conditioning. -/
def calcPrice (raw : List RawVal) (ssK : ℕ → ℚ) (binVal : ℤ → ℚ) :
    Option (ℤ × ℤ × ℕ × ℚ × ℚ) := do
  let bc ← buildHist raw
  let s5sum := (Finset.Ico (0 : ℤ) 2401).sum bc
  let dc ← condition bc
  let rough ← detector dc.1 ssK binVal
  let op ← voterOp rough (raw.map RawVal.val)
  pure (ratTrunc (refineLast rough op), rough, op.length, s5sum, dc.2)

/-! ## Concrete instantiations used to exercise the definitions

The detector's transcendental parameters are instantiated with the
all-zero smooth kernel and the constant bin value `1/200` (a legal bin
value: positive and below `1`); concrete runs use single-spike
histograms, whose scores have closed forms. -/

/-- A single spike of weight `w` at bin `X`. -/
def spikeFn (X : ℤ) (w : ℚ) : ℤ → ℚ := Function.update (fun _ => 0) X w

/-- The surcharge kernel sampled at window position `X - 199 - sl`
(the only position where a spike at `X` meets the kernel), `0` when
that position falls outside the kernel window `[0, 803)`. -/
def spShift (X sl : ℤ) : ℚ :=
  if 0 ≤ X - 199 - sl ∧ X - 199 - sl < 803 then sp (X - 199 - sl).toNat else 0

/-- Concrete smooth kernel: all zero. -/
def wSsK : ℕ → ℚ := fun _ => 0

/-- Concrete bin values: the constant `1/200`. -/
def wBinVal : ℤ → ℚ := fun _ => 1 / 200

/-- Concrete conditioned histogram for the detector run: a spike of
weight `1` at bin `600`. -/
def wDens10 : ℤ → ℚ := spikeFn 600 1

/-- Concrete raw input for the conditioner run: one output of value
`31.5` (log position `3/2`), which lands in bin `1501`. -/
def wRaw4 : List RawVal := [⟨63 / 2, 3 / 2⟩]

/-- The histogram of `wRaw4`. -/
def wBc4 : ℤ → ℚ := spikeFn 1501 1

/-- Concrete raw input for the full pipeline run: one output of value
`0.0000316` (log position `-9/2`), which lands in bin `301`. -/
def wRaw9 : List RawVal := [⟨316 / 10000000, -9 / 2⟩]

/-- The histogram of `wRaw9`. -/
def wBc9 : ℤ → ℚ := spikeFn 301 1

/-- The conditioned density of `wRaw9`: the spike normalizes to `1`
and is capped at `0.008 = 1/125`. -/
def wDens9 : ℤ → ℚ := spikeFn 301 (1 / 125)

/-! ## Basic lemmas about `ratTrunc` -/

theorem ratTrunc_intCast (z : ℤ) : ratTrunc (z : ℚ) = z := by
  simp [ratTrunc, Rat.num_intCast, Rat.den_intCast, Int.tdiv_one]

theorem ratTrunc_eq_floor {q : ℚ} (h : 0 ≤ q) : ratTrunc q = ⌊q⌋ := by
  rw [ratTrunc, Int.tdiv_eq_ediv (Rat.num_nonneg.mpr h) (by positivity), Rat.floor_def]

theorem one_le_ratTrunc {q : ℚ} (h : 1 ≤ q) : 1 ≤ ratTrunc q := by
  rw [ratTrunc_eq_floor (le_trans zero_le_one h)]
  exact Int.le_floor.mpr (by exact_mod_cast h)

/-! ## Histogram builder: the edge invariant (claim C3) -/

/-- The largest edge index whose edge is `≤` the value: for
`t = log10 a ≥ -6`, `bins[k] ≤ a` iff `k ≤ ⌊200(t+6)⌋ + 1`. -/
def topEdge (t : ℚ) : ℤ := ⌊200 * (t + 6)⌋ + 1

theorem topEdge_pos {t : ℚ} (h1 : -6 ≤ t) : 1 ≤ topEdge t := by
  have : (0 : ℤ) ≤ ⌊200 * (t + 6)⌋ := Int.le_floor.mpr (by push_cast; nlinarith)
  unfold topEdge; omega

theorem edgeLe_iff {t : ℚ} (h1 : -6 ≤ t) (k : ℤ) : edgeLe k t ↔ k ≤ topEdge t := by
  have hM := topEdge_pos h1
  constructor
  · rintro (rfl | hk)
    · omega
    · have : (k : ℚ) - 1 ≤ 200 * (t + 6) := by
        have := (div_le_iff₀ (by norm_num : (0:ℚ) < 200)).mp (by linarith : ((k:ℚ)-1)/200 ≤ t + 6)
        linarith
      have : (k - 1 : ℤ) ≤ ⌊200 * (t + 6)⌋ := Int.le_floor.mpr (by push_cast at this ⊢; linarith)
      unfold topEdge; omega
  · intro hk
    rcases eq_or_ne k 0 with rfl | hk0
    · exact Or.inl rfl
    · refine Or.inr ?_
      have hkf : (k - 1 : ℤ) ≤ ⌊200 * (t + 6)⌋ := by unfold topEdge at hk; omega
      have : ((k - 1 : ℤ) : ℚ) ≤ 200 * (t + 6) :=
        le_trans (Int.cast_le.mpr hkf) (Int.floor_le _)
      have h2 : ((k : ℚ) - 1) / 200 ≤ t + 6 := by
        rw [div_le_iff₀ (by norm_num : (0:ℚ) < 200)]
        push_cast at this; linarith
      linarith

theorem binScan_spec {t : ℚ} (h1 : -6 ≤ t) :
    ∀ (fuel : ℕ) (be : ℤ), 0 ≤ be → be ≤ topEdge t + 1 → topEdge t + 1 ≤ 2400 →
      (topEdge t + 1 - be).toNat < fuel → binScan t fuel be = some (topEdge t + 1) := by
  intro fuel
  induction fuel with
  | zero => intro be _ _ _ h; omega
  | succ n ih =>
    intro be hbe0 hbeM hM hfuel
    rw [binScan]
    rw [if_neg (by omega)]
    rcases eq_or_lt_of_le hbeM with rfl | hlt
    · rw [if_neg]
      intro hEdge
      have := (edgeLe_iff h1 _).mp hEdge
      omega
    · rw [if_pos ((edgeLe_iff h1 be).mpr (by omega))]
      exact ih (be + 1) (by omega) (by omega) hM (by omega)

theorem binOf_eq {t : ℚ} (h1 : -6 ≤ t) (h2 : t < 2399 / 200 - 6) :
    binOf t = some (topEdge t + 1) := by
  have hA0 : (0 : ℚ) ≤ (t - (-6)) / 12 * 2401 := by nlinarith
  have hMb : topEdge t + 1 ≤ 2400 := by
    have : ⌊200 * (t + 6)⌋ < 2399 := Int.floor_lt.mpr (by push_cast; nlinarith)
    unfold topEdge; omega
  have hstart : ratTrunc ((t - (-6)) / 12 * 2401) = ⌊(t - (-6)) / 12 * 2401⌋ :=
    ratTrunc_eq_floor hA0
  have hlt : (t - (-6)) / 12 * 2401 < ((topEdge t + 1 : ℤ) : ℚ) := by
    have hfl : 200 * (t + 6) < ((topEdge t : ℤ) : ℚ) := by
      unfold topEdge; push_cast; exact Int.lt_floor_add_one _
    have ht6 : (t + 6) / 12 < 1 := by nlinarith
    have : (t - (-6)) / 12 * 2401 = 200 * (t + 6) + (t + 6) / 12 := by ring
    push_cast at hfl ⊢; nlinarith
  have hle : ⌊(t - (-6)) / 12 * 2401⌋ ≤ topEdge t := by
    have := Int.floor_lt.mpr hlt
    omega
  have hge : 0 ≤ ⌊(t - (-6)) / 12 * 2401⌋ := Int.le_floor.mpr (by exact_mod_cast hA0)
  rw [binOf, hstart]
  exact binScan_spec h1 2402 _ hge (by omega) hMb (by omega)

/-- C3 (corrected): for every value `v` with `10^-6 ≤ v` and
`v < 10^(5+199/200)` (in log space: `-6 ≤ t < 2399/200 - 6`), the
histogram builder increments exactly one bin count, and the resolved
bin index `b = be - 1` satisfies `edges[b] ≤ v < edges[b+1]`.  The
original claim's domain `v < 10^6` is corrected to `v < 10^(5+199/200)`
(the last edge): see `c3_counterexample_top_decade`. -/
theorem c3_histogram_bin_invariant (t : ℚ) (h1 : -6 ≤ t) (h2 : t < 2399 / 200 - 6) :
    ∃ be : ℤ, binOf t = some be ∧ 1 ≤ be ∧ be ≤ 2400 ∧
      edgeLe (be - 1) t ∧ ¬ edgeLe be t ∧
      ∀ (bc : ℤ → ℚ) (x : ℚ),
        histStep bc ⟨x, t⟩ = some (Function.update bc (be - 1) (bc (be - 1) + 1)) := by
  refine ⟨topEdge t + 1, binOf_eq h1 h2, by have := topEdge_pos h1; omega, ?_, ?_, ?_, ?_⟩
  · have : ⌊200 * (t + 6)⌋ < 2399 := Int.floor_lt.mpr (by push_cast; nlinarith)
    unfold topEdge; omega
  · exact (edgeLe_iff h1 _).mpr (by omega)
  · intro hEdge
    have := (edgeLe_iff h1 _).mp hEdge
    omega
  · intro bc x
    rw [histStep, binOf_eq h1 h2]
    rfl

/-- C3, counterexample to the claim as stated: the value
`v = 10^(5+199/200) = 977237.22…` lies in the claimed domain
`10^-6 ≤ v < 10^6` (log position `t = 2399/200 - 6 ∈ [-6, 6)`), but the
builder does not increment any bin: the forward scan runs past the last
edge and Python raises `IndexError` reading `bins[2401]`. -/
theorem c3_counterexample_top_decade :
    (-6 : ℚ) ≤ 2399 / 200 - 6 ∧ (2399 / 200 - 6 : ℚ) < 6 ∧
      binOf (2399 / 200 - 6) = none ∧
      histStep (fun _ => 0) ⟨977237, 2399 / 200 - 6⟩ = none := by
  have hb : binOf (2399 / 200 - 6) = none := by with_unfolding_all decide
  exact ⟨by norm_num, by norm_num, hb, by simp [histStep, hb]⟩

/-- C3, witness: the theorem applied at `t = 3/2` (a value of about
`31.6`), whose resolved bin is `1501`. -/
theorem c3_witness :
    (-6 : ℚ) ≤ 3 / 2 ∧ (3 / 2 : ℚ) < 2399 / 200 - 6 ∧
      (∃ be : ℤ, binOf (3 / 2) = some be ∧ 1 ≤ be ∧ be ≤ 2400 ∧
        edgeLe (be - 1) (3 / 2) ∧ ¬ edgeLe be (3 / 2) ∧
        ∀ (bc : ℤ → ℚ) (x : ℚ),
          histStep bc ⟨x, 3 / 2⟩ =
            some (Function.update bc (be - 1) (bc (be - 1) + 1))) :=
  ⟨by norm_num, by norm_num,
    c3_histogram_bin_invariant (3 / 2) (by norm_num) (by norm_num)⟩

/-! ## Conditioner lemmas (claims C1 and C4) -/

theorem repairFold_congr (l : List ℤ) :
    ∀ (f g : ℤ → ℚ), (∀ n, f n = g n) →
      ∀ n, (l.foldl repairStep f) n = (l.foldl repairStep g) n := by
  induction l with
  | nil => intro f g h n; exact h n
  | cons r rs ih =>
    intro f g h n
    refine ih _ _ (fun m => ?_) n
    simp only [repairStep, Function.update_apply, h]

theorem repairFold_fixed (l : List ℤ) :
    ∀ (g : ℤ → ℚ), (∀ r ∈ l, 0.5 * (g (r + 1) + g (r - 1)) = g r) →
      ∀ n, (l.foldl repairStep g) n = g n := by
  induction l with
  | nil => intro g _ n; rfl
  | cons r rs ih =>
    intro g h n
    have hstep : ∀ m, repairStep g r m = g m := by
      intro m
      simp only [repairStep, Function.update_apply]
      split
      · next he => rw [he, h r (List.mem_cons_self ..)]
      · rfl
    calc (rs.foldl repairStep (repairStep g r)) n
        = (rs.foldl repairStep g) n := repairFold_congr rs _ _ hstep n
      _ = g n := ih g (fun x hx => h x (List.mem_cons_of_mem _ hx)) n

/-- The zero histogram is untouched by tail-zeroing and repair. -/
theorem repairZero (n : ℤ) : repairBins (zeroTails (fun _ => 0)) n = 0 := by
  have hz : ∀ m : ℤ, zeroTails (fun _ => (0:ℚ)) m = 0 := by
    intro m; unfold zeroTails; split <;> rfl
  rw [repairBins, repairFold_fixed repairIdx _ (fun r _ => by rw [hz, hz, hz]; norm_num), hz]

/-- A single spike placed away from every repair index and its two
neighbours passes through tail-zeroing and repair unchanged. -/
theorem repairSpike (X : ℤ) (w : ℚ) (hX1 : 201 ≤ X) (hX2 : X < 1601)
    (hmem : ∀ r ∈ repairIdx, X ≠ r ∧ X ≠ r + 1 ∧ X ≠ r - 1) (n : ℤ) :
    repairBins (zeroTails (Function.update (fun _ : ℤ => (0:ℚ)) X w)) n =
      Function.update (fun _ : ℤ => (0:ℚ)) X w n := by
  have hz : ∀ m : ℤ, zeroTails (Function.update (fun _ => (0:ℚ)) X w) m =
      Function.update (fun _ => (0:ℚ)) X w m := by
    intro m
    unfold zeroTails
    split
    · next hm =>
      rw [Function.update_apply, if_neg (by omega)]
    · rfl
  have hfix : ∀ r ∈ repairIdx,
      0.5 * (zeroTails (Function.update (fun _ => (0:ℚ)) X w) (r + 1) +
        zeroTails (Function.update (fun _ => (0:ℚ)) X w) (r - 1)) =
        zeroTails (Function.update (fun _ => (0:ℚ)) X w) r := by
    intro r hr
    obtain ⟨h1, h2, h3⟩ := hmem r hr
    rw [hz, hz, hz, Function.update_apply, Function.update_apply, Function.update_apply,
      if_neg (by omega), if_neg (by omega), if_neg (by omega)]
    norm_num
  rw [repairBins, repairFold_fixed repairIdx _ hfix, hz]

/-- The sum of a spike over any index window containing it. -/
theorem sumIco_spike (a b X : ℤ) (w : ℚ) (hX1 : a ≤ X) (hX2 : X < b) :
    (Finset.Ico a b).sum (Function.update (fun _ : ℤ => (0:ℚ)) X w) = w := by
  have h : ∀ n ∈ Finset.Ico a b,
      Function.update (fun _ : ℤ => (0:ℚ)) X w n = if n = X then w else 0 := by
    intro n _; rw [Function.update_apply]
  rw [Finset.sum_congr rfl h, Finset.sum_ite_eq' (Finset.Ico a b) X (fun _ => w),
    if_pos (Finset.mem_Ico.mpr ⟨hX1, hX2⟩)]

/-- `calc_price` on the empty input dies at normalization: the window
sum `cs` is `0` and `bc[n] /= cs` raises `ZeroDivisionError`. -/
theorem calcPrice_nil (ssK : ℕ → ℚ) (binVal : ℤ → ℚ) :
    calcPrice [] ssK binVal = none := by
  have hb : buildHist ([] : List RawVal) = some (fun _ => 0) := rfl
  have hcs : (Finset.Ico (201 : ℤ) 1601).sum (repairBins (zeroTails (fun _ => 0))) = 0 := by
    rw [Finset.sum_congr rfl (fun n _ => repairZero n)]
    exact Finset.sum_const_zero
  have hcond : condition (fun _ => 0) = none := by
    rw [condition]
    simp only [hcs, if_pos rfl, if_true, eq_self_iff_true]
  rw [calcPrice, hb]
  simp only [Option.bind_eq_bind, Option.some_bind, hcond, Option.none_bind]

/-- C1 (corrected): on the empty input multiset `calc_price` does not
return: the all-zero histogram gives a window sum `cs = 0`, and the
normalization `bc[n] /= cs` raises `ZeroDivisionError` before the shift
detector ever runs.  (The claim asserted the call returns with the
all-zero-histogram rough price; see `c1_counterexample_empty_input`.) -/
theorem c1_empty_input_raises (ssK : ℕ → ℚ) (binVal : ℤ → ℚ) :
    calcPrice [] ssK binVal = none :=
  calcPrice_nil ssK binVal

/-- C1, counterexample to the claim as stated, at the concrete kernel
`ss = 0` and bin values `bins = 1`: `calc_price` of the empty multiset
produces no result at all, rather than returning a price. -/
theorem c1_counterexample_empty_input :
    calcPrice [] (fun _ => 0) (fun _ => 1) = none :=
  calcPrice_nil (fun _ => 0) (fun _ => 1)

theorem histFold_nonneg (raw : List RawVal) :
    ∀ (g bc : ℤ → ℚ), raw.foldlM histStep g = some bc →
      (∀ n, 0 ≤ g n) → ∀ n, 0 ≤ bc n := by
  induction raw with
  | nil =>
    intro g bc h hg
    rw [List.foldlM_nil] at h
    cases h; exact hg
  | cons v vs ih =>
    intro g bc h hg
    rw [List.foldlM_cons] at h
    rcases Option.bind_eq_some.mp h with ⟨g', hg', hrest⟩
    rcases Option.map_eq_some'.mp hg' with ⟨be, _, hup⟩
    refine ih g' bc hrest ?_
    intro n
    rw [← hup, Function.update_apply]
    split
    · have := hg (be - 1); linarith
    · exact hg n

theorem buildHist_nonneg (raw : List RawVal) (bc : ℤ → ℚ)
    (hb : buildHist raw = some bc) : ∀ n, 0 ≤ bc n :=
  histFold_nonneg raw _ bc hb (fun _ => le_refl 0)

theorem repairFold_nonneg (l : List ℤ) :
    ∀ (g : ℤ → ℚ), (∀ n, 0 ≤ g n) → ∀ n, 0 ≤ (l.foldl repairStep g) n := by
  induction l with
  | nil => intro g hg n; exact hg n
  | cons r rs ih =>
    intro g hg n
    refine ih _ (fun m => ?_) n
    rw [repairStep, Function.update_apply]
    split
    · have := hg (r + 1); have := hg (r - 1); positivity
    · exact hg m

/-- C4 (confirmed): whenever the post-repair window sum `cs` is
strictly positive, conditioning succeeds and returns that pre-
normalization `cs` (never recomputed after capping); every conditioned
window density lies in `[0, 0.008]`; the normalized window sums to
exactly `1` before capping; and the capped window sum is at most `1`. -/
theorem c4_conditioner_invariants (raw : List RawVal) (bc : ℤ → ℚ)
    (hb : buildHist raw = some bc)
    (hcs : 0 < (Finset.Ico (201 : ℤ) 1601).sum (repairBins (zeroTails bc))) :
    ∃ dens : ℤ → ℚ,
      condition bc =
        some (dens, (Finset.Ico (201 : ℤ) 1601).sum (repairBins (zeroTails bc))) ∧
      (∀ n, 201 ≤ n → n < 1601 → 0 ≤ dens n ∧ dens n ≤ 0.008) ∧
      (Finset.Ico (201 : ℤ) 1601).sum
        (fun n => repairBins (zeroTails bc) n /
          (Finset.Ico (201 : ℤ) 1601).sum (repairBins (zeroTails bc))) = 1 ∧
      (Finset.Ico (201 : ℤ) 1601).sum dens ≤ 1 := by
  have hnn : ∀ n, 0 ≤ repairBins (zeroTails bc) n := by
    have hbc : ∀ n, 0 ≤ bc n := buildHist_nonneg raw bc hb
    have hzt : ∀ n, 0 ≤ zeroTails bc n := by
      intro n; unfold zeroTails; split
      · exact le_refl 0
      · exact hbc n
    rw [repairBins]
    exact repairFold_nonneg repairIdx _ hzt
  set cs := (Finset.Ico (201 : ℤ) 1601).sum (repairBins (zeroTails bc)) with hcsdef
  set rep := repairBins (zeroTails bc) with hrepdef
  have hcond : condition bc =
      some (fun n => if 201 ≤ n ∧ n < 1601 then
          (let x := rep n / cs; if x > 0.008 then 0.008 else x)
        else rep n, cs) := by
    rw [condition]
    simp only [← hrepdef, ← hcsdef, if_neg hcs.ne']
  refine ⟨_, hcond, ?_, ?_, ?_⟩
  · intro n hn1 hn2
    have hx : 0 ≤ rep n / cs := div_nonneg (hnn n) hcs.le
    simp only [if_pos (And.intro hn1 hn2)]
    constructor
    · split <;> [norm_num; exact hx]
    · split
      · exact le_refl _
      · next h => exact le_of_not_lt h
  · rw [← Finset.sum_div, div_self hcs.ne']
  · have hterm : ∀ n ∈ Finset.Ico (201 : ℤ) 1601,
        (if 201 ≤ n ∧ n < 1601 then
          (let x := rep n / cs; if x > 0.008 then 0.008 else x)
        else rep n) ≤ rep n / cs := by
      intro n hn
      rw [Finset.mem_Ico] at hn
      simp only [if_pos (And.intro hn.1 hn.2)]
      split
      · next h => exact le_of_lt h
      · exact le_refl _
    calc (Finset.Ico (201 : ℤ) 1601).sum _ ≤
        (Finset.Ico (201 : ℤ) 1601).sum (fun n => rep n / cs) :=
          Finset.sum_le_sum hterm
      _ = 1 := by rw [← Finset.sum_div, div_self hcs.ne']

/-! ## Shift detector lemmas (claims C2 and C10) -/

theorem neighborScore_zero (b : ℤ) : neighborScore (fun _ => 0) b = 0 := by
  simp [neighborScore]

/-- C2 (corrected): `bn2 = -1 if nds > nus else 1`, so when the two
neighbour scores are exactly equal the detector selects the *upper*
neighbour `bestShift + 1`, not the lower one the claim states; see
`c2_counterexample_tie`. -/
theorem c2_tie_break_upper (dens : ℤ → ℚ) (bsl : ℤ)
    (h : neighborScore dens (bsl + 1) = neighborScore dens (bsl - 1)) :
    bn2of (neighborScore dens (bsl + 1)) (neighborScore dens (bsl - 1)) = 1 := by
  rw [bn2of, if_neg (by rw [h]; exact lt_irrefl _)]

/-- C2, counterexample to the claim as stated: on the all-zero
conditioned histogram at `bestShift = 0` the two neighbour scores tie
exactly, and the selected neighbour is `+1`, not `-1`. -/
theorem c2_counterexample_tie :
    neighborScore (fun _ => 0) (0 + 1) = neighborScore (fun _ => 0) (0 - 1) ∧
      bn2of (neighborScore (fun _ => 0) (0 + 1)) (neighborScore (fun _ => 0) (0 - 1)) ≠ -1 := by
  refine ⟨by rw [neighborScore_zero, neighborScore_zero], ?_⟩
  rw [neighborScore_zero, neighborScore_zero, bn2of, if_neg (lt_irrefl 0)]
  decide

/-- C2, witness for the corrected theorem, at the all-zero histogram. -/
theorem c2_witness :
    neighborScore (fun _ => 0) (0 + 1) = neighborScore (fun _ => 0) (0 - 1) ∧
      bn2of (neighborScore (fun _ => 0) (0 + 1)) (neighborScore (fun _ => 0) (0 - 1)) = 1 := by
  have h : neighborScore (fun _ => (0:ℚ)) (0 + 1) = neighborScore (fun _ => 0) (0 - 1) := by
    rw [neighborScore_zero, neighborScore_zero]
  exact ⟨h, c2_tie_break_upper (fun _ => 0) 0 h⟩

theorem pydiv_eq_some {a b c : ℚ} : pydiv a b = some c ↔ b ≠ 0 ∧ c = a / b := by
  rw [pydiv]
  split
  · next h => simp [h]
  · next h => simp [h, eq_comm]

theorem detFold_bss_mono (dens : ℤ → ℚ) (ssK : ℕ → ℚ) (l : List ℤ) :
    ∀ st : ℤ × ℚ × ℚ, st.2.1 ≤ (l.foldl (detStep dens ssK) st).2.1 := by
  induction l with
  | nil => intro st; exact le_refl _
  | cons sl rest ih =>
    intro st
    refine le_trans ?_ (ih (detStep dens ssK st sl))
    rw [detStep]
    split
    · next h => exact le_of_lt h
    · exact le_refl _

theorem detFold_bss_ge (dens : ℤ → ℚ) (ssK : ℕ → ℚ) (l : List ℤ) :
    ∀ st : ℤ × ℚ × ℚ, ∀ sl ∈ l,
      scoreAt dens ssK sl ≤ (l.foldl (detStep dens ssK) st).2.1 := by
  induction l with
  | nil => intro st sl h; cases h
  | cons x rest ih =>
    intro st sl hsl
    rcases List.mem_cons.mp hsl with rfl | hmem
    · refine le_trans ?_ (detFold_bss_mono dens ssK rest (detStep dens ssK st sl))
      rw [detStep]
      split
      · exact le_refl _
      · next h => exact le_of_not_lt h
    · exact ih (detStep dens ssK st x) sl hmem

theorem detFold_ts (dens : ℤ → ℚ) (ssK : ℕ → ℚ) (l : List ℤ) :
    ∀ st : ℤ × ℚ × ℚ,
      (l.foldl (detStep dens ssK) st).2.2 = st.2.2 + (l.map (scoreAt dens ssK)).sum := by
  induction l with
  | nil => intro st; simp
  | cons x rest ih =>
    intro st
    rw [List.foldl_cons, ih, List.map_cons, List.sum_cons]
    have : (detStep dens ssK st x).2.2 = st.2.2 + scoreAt dens ssK x := by
      rw [detStep]; split <;> rfl
    rw [this]; ring

theorem detFold_bsl_mem (dens : ℤ → ℚ) (ssK : ℕ → ℚ) (l : List ℤ) :
    ∀ st : ℤ × ℚ × ℚ,
      (l.foldl (detStep dens ssK) st).1 = st.1 ∨ (l.foldl (detStep dens ssK) st).1 ∈ l := by
  induction l with
  | nil => intro st; exact Or.inl rfl
  | cons x rest ih =>
    intro st
    rw [List.foldl_cons]
    rcases ih (detStep dens ssK st x) with h | h
    · rw [h, detStep]
      split
      · exact Or.inr (List.mem_cons_self ..)
      · exact Or.inl rfl
    · exact Or.inr (List.mem_cons_of_mem _ h)

theorem slList_mem_bounds {sl : ℤ} (h : sl ∈ slList) : -141 ≤ sl ∧ sl ≤ 200 := by
  rw [slList] at h
  rcases List.mem_map.mp h with ⟨k, hk, rfl⟩
  have := List.mem_range.mp hk
  omega

theorem slList_length : slList.length = 342 := by
  rw [slList, List.length_map, List.length_range]

theorem list_sum_le_length_mul {l : List ℚ} {B : ℚ}
    (h : ∀ x ∈ l, x ≤ B) : l.sum ≤ l.length * B := by
  induction l with
  | nil => simp
  | cons x rest ih =>
    rw [List.sum_cons, List.length_cons]
    have h1 : x ≤ B := h x (List.mem_cons_self ..)
    have h2 : rest.sum ≤ rest.length * B := ih (fun y hy => h y (List.mem_cons_of_mem _ hy))
    push_cast
    nlinarith

/-- The blend numerator `a1 = bss - avs` of source line 89 is
nonnegative: `bss` is the running maximum (from `0`) of all the scores
and `avs` is their mean over the `342` shifts. -/
theorem detector_a1_nonneg (dens : ℤ → ℚ) (ssK : ℕ → ℚ) :
    (detFold dens ssK).2.2 / 342 ≤ (detFold dens ssK).2.1 := by
  have hts : (detFold dens ssK).2.2 = (slList.map (scoreAt dens ssK)).sum := by
    rw [detFold, detFold_ts]
    exact zero_add _
  have hbss0 : (0 : ℚ) ≤ (detFold dens ssK).2.1 := by
    rw [detFold]
    exact detFold_bss_mono dens ssK slList (0, 0, 0)
  have hall : ∀ x ∈ slList.map (scoreAt dens ssK), x ≤ (detFold dens ssK).2.1 := by
    intro x hx
    rcases List.mem_map.mp hx with ⟨sl, hsl, rfl⟩
    rw [detFold]
    exact detFold_bss_ge dens ssK slList (0, 0, 0) sl hsl
  have hsum : (slList.map (scoreAt dens ssK)).sum ≤ 342 * (detFold dens ssK).2.1 := by
    have := list_sum_le_length_mul hall
    rwa [List.length_map, slList_length] at this
  rw [hts, div_le_iff₀ (by norm_num : (0:ℚ) < 342)]
  linarith

/-- C10 (confirmed): whenever the shift-detector stage completes
without error, the rough price is at least `1` (in fact at least
`100`).  The hypotheses on `binVal` hold of the real bin values
`bins[k] = 10^(-6+(k-1)/200)`: they are positive, and for every index
`k ≤ 802` the detector can touch (`k = 601 + bsl + δ` with
`bsl ∈ [-141, 200]`, `δ ∈ {0, ±1}`) they are at most
`10^(-6+801/200) = 10^(-1.995) < 1`. -/
theorem c10_rough_price_positive (dens : ℤ → ℚ) (ssK : ℕ → ℚ) (binVal : ℤ → ℚ)
    (hbv : ∀ i : ℤ, 459 ≤ i → i ≤ 802 → 0 < binVal i ∧ binVal i ≤ 1)
    (r : ℤ) (h : detector dens ssK binVal = some r) : 1 ≤ r := by
  have hbsl : -141 ≤ (detFold dens ssK).1 ∧ (detFold dens ssK).1 ≤ 200 := by
    rcases detFold_bsl_mem dens ssK slList (0, 0, 0) with h0 | hm
    · rw [detFold, h0]
      exact ⟨by norm_num, by norm_num⟩
    · exact slList_mem_bounds hm
  rw [detector] at h
  simp only [Option.bind_eq_bind, Option.bind_eq_some, Option.pure_def,
    Option.some_inj] at h
  obtain ⟨bu1, hbu1, bu2, hbu2, w1, hw1, w2, hw2, hr⟩ := h
  rw [pydiv_eq_some] at hbu1 hbu2 hw1 hw2
  obtain ⟨hu1ne, rfl⟩ := hbu1
  obtain ⟨hu2ne, rfl⟩ := hbu2
  obtain ⟨hane, rfl⟩ := hw1
  obtain ⟨-, rfl⟩ := hw2
  set bsl := (detFold dens ssK).1 with hbsldef
  set bss := (detFold dens ssK).2.1 with hbssdef
  set ts := (detFold dens ssK).2.2 with htsdef
  set nus := neighborScore dens (bsl + 1) with hnusdef
  set nds := neighborScore dens (bsl - 1) with hndsdef
  set avs := ts / 342 with havsdef
  set a1 := bss - avs with ha1def
  set a2 := |max nus nds - avs| with ha2def
  have ha1 : 0 ≤ a1 := by
    rw [ha1def, havsdef]
    have := detector_a1_nonneg dens ssK
    rw [← hbssdef, ← htsdef] at this
    linarith
  have ha2 : 0 ≤ a2 := abs_nonneg _
  have hapos : 0 < a1 + a2 := lt_of_le_of_ne (by linarith) (Ne.symm hane)
  have hu1 : 0 < binVal (601 + bsl) ∧ binVal (601 + bsl) ≤ 1 :=
    hbv (601 + bsl) (by omega) (by omega)
  have hbn2 : bn2of nus nds = -1 ∨ bn2of nus nds = 1 := by
    rw [bn2of]; split <;> [exact Or.inl rfl; exact Or.inr rfl]
  have hu2 : 0 < binVal (601 + bsl + bn2of nus nds) ∧
      binVal (601 + bsl + bn2of nus nds) ≤ 1 := by
    rcases hbn2 with he | he <;> rw [he] <;> exact hbv _ (by omega) (by omega)
  have hbu1ge : (100 : ℚ) ≤ 100 / binVal (601 + bsl) := by
    rw [le_div_iff₀ hu1.1]
    nlinarith [hu1.2]
  have hbu2ge : (100 : ℚ) ≤ 100 / binVal (601 + bsl + bn2of nus nds) := by
    rw [le_div_iff₀ hu2.1]
    nlinarith [hu2.2]
  have hw1n : 0 ≤ a1 / (a1 + a2) := div_nonneg ha1 hapos.le
  have hw2n : 0 ≤ a2 / (a1 + a2) := div_nonneg ha2 hapos.le
  have hwsum : a1 / (a1 + a2) + a2 / (a1 + a2) = 1 := by
    rw [div_add_div_same, div_self hapos.ne']
  have hblend : (100 : ℚ) ≤ a1 / (a1 + a2) * (100 / binVal (601 + bsl)) +
      a2 / (a1 + a2) * (100 / binVal (601 + bsl + bn2of nus nds)) := by
    have hm1 := mul_le_mul_of_nonneg_left hbu1ge hw1n
    have hm2 := mul_le_mul_of_nonneg_left hbu2ge hw2n
    have hsplit : a1 / (a1 + a2) * 100 + a2 / (a1 + a2) * 100 =
        (a1 / (a1 + a2) + a2 / (a1 + a2)) * 100 := by ring
    rw [hwsum] at hsplit
    linarith
  rw [← hr]
  exact one_le_ratTrunc (by linarith)

/-! ## Denomination voter lemmas (claims C7 and C8) -/

/-- C8 (confirmed): a raw value within the 0.01% relative tolerance of
any round-BTC reference point contributes nothing for any denomination,
regardless of whether it falls inside that denomination's ±25% band at
the rough price. -/
theorem c8_round_btc_exclusion (rough : ℤ) (v u : ℚ) (_hu : u ∈ usds)
    (hround : roundHit v = true) : voteOne rough v u = none := by
  simp only [voteOne, hround, if_true, ite_self]

/-- C8, witness: `v = 0.01` is a reference point of the ladder (hence a
round hit), and with rough price `100000` it lies inside the `1000`
denomination's band; it still contributes nothing. -/
theorem c8_witness :
    (1000 : ℚ) ∈ usds ∧ roundHit (1 / 100) = true ∧
      voteOne 100000 (1 / 100) 1000 = none := by
  have h1 : (1000 : ℚ) ∈ usds := by with_unfolding_all decide
  have h2 : roundHit (1 / 100) = true := by with_unfolding_all decide
  exact ⟨h1, h2, c8_round_btc_exclusion 100000 (1 / 100) 1000 h1 h2⟩

theorem usds_pos : ∀ u ∈ usds, (0 : ℚ) < u := by
  intro u hu
  rw [usds] at hu
  fin_cases hu <;> norm_num

/-- The split subroutine degenerates to the rough price on an empty
candidate list (source line 119). -/
theorem fco_nil (rough : ℤ) (pmin pmax : ℚ) :
    fco rough [] pmin pmax = ((rough : ℚ), 0) := rfl

theorem refineGo_succ (rough : ℤ) (op : List ℚ) (fuel : ℕ) (cp2 : ℚ) (avset : List ℚ) :
    refineGo rough op (fuel + 1) cp2 avset =
      (if (fco rough op (cp2 - 0.05 * cp2) (cp2 + 0.05 * cp2)).1 ∈ avset then
        (fco rough op (cp2 - 0.05 * cp2) (cp2 + 0.05 * cp2)).1
      else refineGo rough op fuel (fco rough op (cp2 - 0.05 * cp2) (cp2 + 0.05 * cp2)).1
        ((fco rough op (cp2 - 0.05 * cp2) (cp2 + 0.05 * cp2)).1 :: avset)) := rfl

/-- The refiner on an empty candidate list returns the rough price:
every split falls back to `float(rough)`, which repeats at once. -/
theorem refineLast_nil (rough : ℤ) : ratTrunc (refineLast rough []) = rough := by
  have hinit : refineInit rough [] = (rough : ℚ) := rfl
  have hgo : refineGo rough [] 100 ((rough : ℚ)) [(rough : ℚ)] = (rough : ℚ) := by
    have h100 : (100 : ℕ) = 99 + 1 := rfl
    rw [h100, refineGo_succ, fco_nil]
    rw [if_pos (List.mem_singleton.mpr rfl)]
  rw [refineLast, hinit, hgo, ratTrunc_intCast]

/-- With a positive rough price every surviving vote `u/n` is strictly
positive: the band forces `n > dn = 0.75·(u/rough) > 0`. -/
theorem voterOp_positive (rough : ℤ) (vals opl : List ℚ) (hrough : 1 ≤ rough)
    (hop : voterOp rough vals = some opl) : ∀ x ∈ opl, 0 < x := by
  intro x hx
  rw [voterOp] at hop
  rw [if_neg (by omega)] at hop
  cases hop
  rcases List.mem_flatMap.mp hx with ⟨n, hn, hxin⟩
  rcases List.mem_filterMap.mp hxin with ⟨u, hu, hvote⟩
  rw [voteOne] at hvote
  have hupos : (0 : ℚ) < u := usds_pos u hu
  have havpos : (0 : ℚ) < u / (rough : ℚ) := by
    apply div_pos hupos
    exact_mod_cast hrough
  split at hvote
  · next hband =>
    split at hvote
    · cases hvote
    · next =>
      have hxval : x = u / n := (Option.some_inj.mp hvote).symm
      have hdn : (0 : ℚ) < u / (rough : ℚ) - 0.25 * (u / (rough : ℚ)) := by linarith
      have hnpos : (0 : ℚ) < n := lt_trans hdn hband.1
      rw [hxval]
      exact div_pos hupos hnpos
  · cases hvote

/-- C7 (confirmed), in two parts.  First: when the candidate set is
empty, the refiner returns the rough price unchanged (every split falls
back to `float(rough)`, which repeats immediately, and `int()` of it is
`rough` again).  Second: with a positive rough price, every element of
the candidate set is a strictly positive implied price `u/n`. -/
theorem c7_empty_candidates_and_positivity :
    (∀ rough : ℤ, ratTrunc (refineLast rough []) = rough) ∧
      (∀ (rough : ℤ) (vals opl : List ℚ), 1 ≤ rough →
        voterOp rough vals = some opl → ∀ x ∈ opl, 0 < x) :=
  ⟨refineLast_nil, voterOp_positive⟩

/-- C7, witness: the empty-candidate fallback at `rough = 7`, and a
nonempty candidate set at `rough = 100000` containing the positive
implied price `1000/0.00667`. -/
theorem c7_witness :
    ratTrunc (refineLast 7 []) = 7 ∧
      (∃ opl : List ℚ, voterOp 100000 [667 / 100000] = some opl ∧
        ∀ x ∈ opl, 0 < x) := by
  refine ⟨c7_empty_candidates_and_positivity.1 7, ?_⟩
  obtain ⟨opl, hopl⟩ : ∃ opl, voterOp 100000 [667 / 100000] = some opl :=
    ⟨_, by rw [voterOp, if_neg (by omega)]⟩
  exact ⟨opl, hopl,
    c7_empty_candidates_and_positivity.2 100000 [667 / 100000] opl (by omega) hopl⟩

/-! ## Split subroutine lemmas (claim C6) -/

theorem fcoFilter_sorted (prices : List ℚ) (pmin pmax : ℚ) :
    List.Sorted (· ≤ ·) (fcoFilter prices pmin pmax) :=
  List.sorted_insertionSort _ _

theorem sorted_getD_le {f : List ℚ} (hs : List.Sorted (· ≤ ·) f) {i j : ℕ}
    (hij : i ≤ j) (hj : j < f.length) : f.getD i 0 ≤ f.getD j 0 := by
  have hi : i < f.length := lt_of_le_of_lt hij hj
  rw [List.getD_eq_getElem f 0 hi, List.getD_eq_getElem f 0 hj]
  exact List.Sorted.rel_get_of_le hs (by exact_mod_cast hij)

/-- The scoring identity of the split subroutine: for a sorted window,
the quantity `d` of source line 125 is the total absolute deviation of
all window points from `f[i]`. -/
theorem dval_eq_absdev {f : List ℚ} (hs : List.Sorted (· ≤ ·) f) {i : ℕ}
    (hi : i < f.length) :
    dval f i = (Finset.range f.length).sum
      (fun j => |f.getD j 0 - f.getD i 0|) := by
  set n := f.length with hn
  set fi := f.getD i 0 with hfi
  have hsplit : (Finset.range (i+1)).sum (fun j => |f.getD j 0 - fi|) +
      (Finset.Ico (i+1) n).sum (fun j => |f.getD j 0 - fi|) =
      (Finset.range n).sum (fun j => |f.getD j 0 - fi|) := by
    simp only [Finset.range_eq_Ico]
    exact Finset.sum_Ico_consecutive _ (Nat.zero_le _) hi
  have hAc : ∀ j ∈ Finset.range i, |f.getD j 0 - fi| = fi - f.getD j 0 := by
    intro j hj
    rw [abs_sub_comm]
    exact abs_of_nonneg (sub_nonneg.mpr
      (sorted_getD_le hs (le_of_lt (Finset.mem_range.mp hj)) hi))
  have hA : (Finset.range i).sum (fun j => |f.getD j 0 - fi|) =
      (i : ℚ) * fi - (Finset.range i).sum (fun j => f.getD j 0) := by
    rw [Finset.sum_congr rfl hAc, Finset.sum_sub_distrib,
      Finset.sum_const, Finset.card_range, nsmul_eq_mul]
  have hCc : ∀ j ∈ Finset.Ico (i+1) n, |f.getD j 0 - fi| = f.getD j 0 - fi := by
    intro j hj
    have hmem := Finset.mem_Ico.mp hj
    have hij : i ≤ j := by omega
    exact abs_of_nonneg (sub_nonneg.mpr (sorted_getD_le hs hij hmem.2))
  have hcard : ((Finset.Ico (i+1) n).card : ℚ) = ((n - i - 1 : ℕ) : ℚ) := by
    have he : n - (i + 1) = n - i - 1 := by omega
    rw [Nat.card_Ico, he]
  have hC : (Finset.Ico (i+1) n).sum (fun j => |f.getD j 0 - fi|) =
      (Finset.Ico (i+1) n).sum (fun j => f.getD j 0) - ((n - i - 1 : ℕ) : ℚ) * fi := by
    rw [Finset.sum_congr rfl hCc, Finset.sum_sub_distrib,
      Finset.sum_const, nsmul_eq_mul, hcard]
  have hls : (if 0 < i then psum f (i - 1) else 0) =
      (Finset.range i).sum (fun j => f.getD j 0) := by
    rcases Nat.eq_zero_or_pos i with rfl | hpos
    · simp
    · have he : i - 1 + 1 = i := by omega
      rw [if_pos hpos, psum, he]
  have hIco : (Finset.Ico (i+1) n).sum (fun j => f.getD j 0) = tsum f - psum f i := by
    have h1 : (Finset.range (i+1)).sum (fun j => f.getD j 0) +
        (Finset.Ico (i+1) n).sum (fun j => f.getD j 0) =
        (Finset.range n).sum (fun j => f.getD j 0) := by
      simp only [Finset.range_eq_Ico]
      exact Finset.sum_Ico_consecutive _ (Nat.zero_le _) hi
    have h2 : psum f i = (Finset.range (i+1)).sum (fun j => f.getD j 0) := rfl
    have h3 : tsum f = (Finset.range n).sum (fun j => f.getD j 0) := rfl
    rw [h2, h3]
    linarith
  have hmid : (Finset.range (i+1)).sum (fun j => |f.getD j 0 - fi|) =
      (Finset.range i).sum (fun j => |f.getD j 0 - fi|) := by
    rw [Finset.sum_range_succ, ← hfi, sub_self, abs_zero, add_zero]
  rw [dval, ← hn, ← hfi, hls, ← hsplit, hmid, hA, hC, hIco]
  ring

theorem scan_min_mono (f : List ℚ) (l : List ℕ) :
    ∀ (st : Option ℚ × ℕ) (m : ℚ), st.1 = some m →
      ∃ mm, (l.foldl (scanStep f) st).1 = some mm ∧ mm ≤ m := by
  induction l with
  | nil => intro st m h; exact ⟨m, h, le_refl m⟩
  | cons x rest ih =>
    intro st m h
    rw [List.foldl_cons, scanStep]
    split
    · next hlt =>
      rcases ih (some (dval f x), x) (dval f x) rfl with ⟨mm, hmm, hle⟩
      refine ⟨mm, hmm, le_trans hle ?_⟩
      rw [h, ltMin] at hlt
      exact le_of_lt (of_decide_eq_true hlt)
    · exact ih st m h

theorem scan_le_of_mem (f : List ℚ) (l : List ℕ) :
    ∀ (st : Option ℚ × ℕ) (i : ℕ), i ∈ l →
      ∃ mm, (l.foldl (scanStep f) st).1 = some mm ∧ mm ≤ dval f i := by
  induction l with
  | nil => intro st i h; cases h
  | cons x rest ih =>
    intro st i hi
    rcases List.mem_cons.mp hi with rfl | hmem
    · rw [List.foldl_cons, scanStep]
      split
      · exact scan_min_mono f rest _ _ rfl
      · next hnlt =>
        cases hst : st.1 with
        | none => rw [hst, ltMin] at hnlt; exact absurd rfl hnlt
        | some m =>
          rw [hst, ltMin] at hnlt
          have hmle : m ≤ dval f i := le_of_not_lt (of_decide_eq_false
            (Bool.of_not_eq_true hnlt))
          rcases scan_min_mono f rest st m hst with ⟨mm, hmm, hle⟩
          exact ⟨mm, hmm, le_trans hle hmle⟩
    · exact ih (scanStep f st x) i hmem

theorem scan_md_inv (f : List ℚ) (l : List ℕ) :
    ∀ st : Option ℚ × ℕ, (st.1 = none ∨ st.1 = some (dval f st.2)) →
      ((l.foldl (scanStep f) st).1 = none ∨
        (l.foldl (scanStep f) st).1 = some (dval f (l.foldl (scanStep f) st).2)) := by
  induction l with
  | nil => intro st h; exact h
  | cons x rest ih =>
    intro st h
    rw [List.foldl_cons, scanStep]
    split
    · exact ih (some (dval f x), x) (Or.inr rfl)
    · exact ih st h

theorem scan_bi_mem (f : List ℚ) (l : List ℕ) :
    ∀ st : Option ℚ × ℕ,
      (l.foldl (scanStep f) st).2 = st.2 ∨ (l.foldl (scanStep f) st).2 ∈ l := by
  induction l with
  | nil => intro st; exact Or.inl rfl
  | cons x rest ih =>
    intro st
    rw [List.foldl_cons, scanStep]
    split
    · rcases ih (some (dval f x), x) with h | h
      · exact Or.inr (h ▸ List.mem_cons_self ..)
      · exact Or.inr (List.mem_cons_of_mem _ h)
    · rcases ih st with h | h
      · exact Or.inl h
      · exact Or.inr (List.mem_cons_of_mem _ h)

/-- The arg-min scan selects a valid index achieving the minimum `d`
value (the first such index, by the strict `d < md` update). -/
theorem fcoScan_spec (f : List ℚ) (hne : f.length ≠ 0) :
    fcoBi f < f.length ∧ (fcoScan f).1 = some (dval f (fcoBi f)) ∧
      ∀ i < f.length, dval f (fcoBi f) ≤ dval f i := by
  have hdef : fcoScan f = (List.range f.length).foldl (scanStep f) (none, 0) := rfl
  have hbidef : fcoBi f = (fcoScan f).2 := rfl
  have hbi : fcoBi f < f.length := by
    rcases scan_bi_mem f (List.range f.length) (none, 0) with h | h
    · rw [hbidef, hdef, h]; omega
    · rw [hbidef, hdef]
      exact List.mem_range.mp h
  have hsome : ∃ mm, (fcoScan f).1 = some mm ∧ mm ≤ dval f 0 := by
    rw [hdef]
    exact scan_le_of_mem f _ _ 0 (List.mem_range.mpr (by omega))
  have hmd : (fcoScan f).1 = some (dval f (fcoBi f)) := by
    rcases scan_md_inv f (List.range f.length) (none, 0) (Or.inl rfl) with h | h
    · rcases hsome with ⟨mm, hmm, -⟩
      rw [hdef] at hmm
      rw [h] at hmm
      cases hmm
    · rw [hbidef, hdef]
      exact h
  refine ⟨hbi, hmd, fun i hilt => ?_⟩
  rcases scan_le_of_mem f (List.range f.length) (none, 0) i (List.mem_range.mpr hilt) with
    ⟨mm, hmm, hle⟩
  rw [← hdef, hmd] at hmm
  cases hmm
  exact hle

/-- C6 (confirmed): in the split subroutine, for a nonempty sorted
filtered window `f`, the score `d` at every index `i` equals the total
absolute deviation of all window points from `f[i]`; the selected point
`f[bi]` minimizes that total absolute deviation over all window points;
and the returned point is exactly `f[bi]` — the median-absolute-
deviation diagnostic computed afterwards does not alter it. -/
theorem c6_split_total_absdev (rough : ℤ) (prices : List ℚ) (pmin pmax : ℚ)
    (hne : (fcoFilter prices pmin pmax).length ≠ 0) :
    (∀ i < (fcoFilter prices pmin pmax).length,
      dval (fcoFilter prices pmin pmax) i =
        (Finset.range (fcoFilter prices pmin pmax).length).sum
          (fun j => |(fcoFilter prices pmin pmax).getD j 0 -
            (fcoFilter prices pmin pmax).getD i 0|)) ∧
    (∀ k < (fcoFilter prices pmin pmax).length,
      (Finset.range (fcoFilter prices pmin pmax).length).sum
        (fun j => |(fcoFilter prices pmin pmax).getD j 0 -
          (fcoFilter prices pmin pmax).getD (fcoBi (fcoFilter prices pmin pmax)) 0|) ≤
      (Finset.range (fcoFilter prices pmin pmax).length).sum
        (fun j => |(fcoFilter prices pmin pmax).getD j 0 -
          (fcoFilter prices pmin pmax).getD k 0|)) ∧
    (fco rough prices pmin pmax).1 =
      (fcoFilter prices pmin pmax).getD (fcoBi (fcoFilter prices pmin pmax)) 0 := by
  set f := fcoFilter prices pmin pmax with hf
  have hs : List.Sorted (· ≤ ·) f := fcoFilter_sorted prices pmin pmax
  have hid : ∀ i < f.length, dval f i = (Finset.range f.length).sum
      (fun j => |f.getD j 0 - f.getD i 0|) := fun i hi => dval_eq_absdev hs hi
  obtain ⟨hbi, -, hmin⟩ := fcoScan_spec f hne
  refine ⟨hid, fun k hk => ?_, ?_⟩
  · rw [← hid _ hbi, ← hid _ hk]
    exact hmin k hk
  · rw [fco, ← hf, if_neg hne]

/-- C6, witness: the window `[1, 2, 4]` (filter bounds `0 < p < 10`):
the selected point is the median `2`, whose total absolute deviation is
`3`, the minimum. -/
theorem c6_witness :
    (fcoFilter [1, 2, 4] 0 10).length ≠ 0 ∧
      (fco 7 [1, 2, 4] 0 10).1 =
        (fcoFilter [1, 2, 4] 0 10).getD (fcoBi (fcoFilter [1, 2, 4] 0 10)) 0 :=
  ⟨by with_unfolding_all decide,
    (c6_split_total_absdev 7 [1, 2, 4] 0 10 (by with_unfolding_all decide)).2.2⟩

/-! ## Refinement loop (claim C5) -/

theorem refineSeq_succ (rough : ℤ) (op : List ℚ) (i : ℕ) :
    refineSeq rough op (i + 1) =
      (fco rough op (refineSeq rough op i - 0.05 * refineSeq rough op i)
        (refineSeq rough op i + 0.05 * refineSeq rough op i)).1 := rfl

theorem refineGo_spec (rough : ℤ) (op : List ℚ) :
    ∀ (fuel i : ℕ) (avset : List ℚ),
      (∀ x, x ∈ avset ↔ ∃ j ≤ i, refineSeq rough op j = x) →
      ∃ k, i ≤ k ∧ k ≤ i + fuel ∧
        refineGo rough op fuel (refineSeq rough op i) avset = refineSeq rough op k ∧
        (∀ m, i < m → m < k →
          ¬ ∃ j < m, refineSeq rough op m = refineSeq rough op j) ∧
        (k = i + fuel ∨ ∃ j < k, refineSeq rough op k = refineSeq rough op j) := by
  intro fuel
  induction fuel with
  | zero =>
    intro i avset _
    exact ⟨i, le_refl i, by omega, rfl, fun m h1 h2 => by omega, Or.inl (by omega)⟩
  | succ n ih =>
    intro i avset hinv
    rw [refineGo_succ, ← refineSeq_succ]
    by_cases hmem : refineSeq rough op (i + 1) ∈ avset
    · refine ⟨i + 1, by omega, by omega, by rw [if_pos hmem], fun m h1 h2 => by omega, ?_⟩
      rcases (hinv _).mp hmem with ⟨j, hj, he⟩
      exact Or.inr ⟨j, by omega, he.symm⟩
    · rw [if_neg hmem]
      have hinv2 : ∀ x, x ∈ (refineSeq rough op (i + 1) :: avset) ↔
          ∃ j ≤ i + 1, refineSeq rough op j = x := by
        intro x
        rw [List.mem_cons, hinv]
        constructor
        · rintro (rfl | ⟨j, hj, he⟩)
          · exact ⟨i + 1, le_refl _, rfl⟩
          · exact ⟨j, by omega, he⟩
        · rintro ⟨j, hj, he⟩
          rcases Nat.lt_or_ge j (i + 1) with hlt | hge
          · exact Or.inr ⟨j, by omega, he⟩
          · have : j = i + 1 := by omega
            subst this
            exact Or.inl he.symm
      rcases ih (i + 1) _ hinv2 with ⟨k, hk1, hk2, hk3, hk4, hk5⟩
      refine ⟨k, by omega, by omega, hk3, ?_, ?_⟩
      · intro m hm1 hm2
        rcases Nat.lt_or_ge (i + 1) m with hgt | hle
        · exact hk4 m hgt hm2
        · have : m = i + 1 := by omega
          subst this
          rintro ⟨j, hj, he⟩
          exact hmem ((hinv _).mpr ⟨j, by omega, he.symm⟩)
      · rcases hk5 with he | he
        · exact Or.inl (by omega)
        · exact Or.inr he

/-- C5 (confirmed): the refinement loop executes at most 100
iterations; the sequence of split results starts from the ±5% window
around the rough price and each later result re-splits the ±5% window
around the previous one (this is `refineSeq`); the loop stops at the
first exact repeat of a previously seen result (no earlier index
repeats); and the final price is the last split value truncated to an
integer. -/
theorem c5_refine_loop_behaviour (rough : ℤ) (op : List ℚ) :
    ∃ k, k ≤ 100 ∧ refineLast rough op = refineSeq rough op k ∧
      ratTrunc (refineLast rough op) = ratTrunc (refineSeq rough op k) ∧
      (∀ m, 0 < m → m < k →
        ¬ ∃ j < m, refineSeq rough op m = refineSeq rough op j) ∧
      (k = 100 ∨ ∃ j < k, refineSeq rough op k = refineSeq rough op j) := by
  have hinv : ∀ x, x ∈ [refineInit rough op] ↔
      ∃ j ≤ 0, refineSeq rough op j = x := by
    intro x
    rw [List.mem_singleton]
    constructor
    · rintro rfl
      exact ⟨0, le_refl 0, rfl⟩
    · rintro ⟨j, hj, he⟩
      rw [Nat.le_zero.mp hj] at he
      exact he.symm
  rcases refineGo_spec rough op 100 0 [refineInit rough op] hinv with
    ⟨k, -, hk2, hk3, hk4, hk5⟩
  have hseq0 : refineSeq rough op 0 = refineInit rough op := rfl
  rw [hseq0] at hk3
  have hlast : refineLast rough op =
      refineGo rough op 100 (refineInit rough op) [refineInit rough op] := rfl
  rw [hlast, hk3]
  refine ⟨k, by omega, rfl, rfl, fun m h1 h2 => hk4 m h1 h2, ?_⟩
  rcases hk5 with he | he
  · exact Or.inl (by omega)
  · exact Or.inr he

/-! ## The output tuple (claim C9) -/

theorem binScan_bounds (t : ℚ) :
    ∀ (fuel : ℕ) (be0 be : ℤ), binScan t fuel be0 = some be → 1 ≤ be ∧ be ≤ 2400 := by
  intro fuel
  induction fuel with
  | zero => intro be0 be h; cases h
  | succ n ih =>
    intro be0 be h
    rw [binScan] at h
    split at h
    · cases h
    · next hguard =>
      split at h
      · exact ih _ _ h
      · next hedge =>
        have he := Option.some_inj.mp h
        subst he
        constructor
        · rcases eq_or_ne be0 0 with rfl | hne
          · exact absurd (Or.inl rfl) hedge
          · omega
        · omega

theorem binOf_bounds {t : ℚ} {be : ℤ} (h : binOf t = some be) :
    1 ≤ be ∧ be ≤ 2400 :=
  binScan_bounds t 2402 _ be h

/-- Each successfully binned raw value adds exactly `1` to the total
bin count: the histogram total equals the raw-output count. -/
theorem histFold_sum (raw : List RawVal) :
    ∀ (g bc : ℤ → ℚ), raw.foldlM histStep g = some bc →
      (Finset.Ico (0 : ℤ) 2401).sum bc =
        (Finset.Ico (0 : ℤ) 2401).sum g + raw.length := by
  induction raw with
  | nil =>
    intro g bc h
    rw [List.foldlM_nil] at h
    cases h
    simp
  | cons v vs ih =>
    intro g bc h
    rw [List.foldlM_cons] at h
    rcases Option.bind_eq_some.mp h with ⟨g', hg', hrest⟩
    rcases Option.map_eq_some'.mp hg' with ⟨be, hbe, hup⟩
    have hbound := binOf_bounds hbe
    have hmem : be - 1 ∈ Finset.Ico (0 : ℤ) 2401 := Finset.mem_Ico.mpr (by omega)
    have hsum1 : (Finset.Ico (0 : ℤ) 2401).sum g' =
        (Finset.Ico (0 : ℤ) 2401).sum g + 1 := by
      rw [← hup, Finset.sum_update_of_mem hmem,
        Finset.sum_eq_sum_diff_singleton_add hmem g]
      ring
    rw [ih g' bc hrest, hsum1, List.length_cons]
    push_cast
    ring

/-- C9 (confirmed): every successful `calc_price` run returns the
5-tuple `(int(cp2), rough, len(op), s5sum, cs)`: the first two
components are integers by construction, the third is the number of
`(value, denomination)` pairs that survived the denomination voter, the
fourth (`s5sum`, the histogram total) equals the number of raw input
values, and the fifth is the conditioner's recorded window sum. -/
theorem c9_output_tuple (raw : List RawVal) (ssK : ℕ → ℚ) (binVal : ℤ → ℚ)
    (out : ℤ × ℤ × ℕ × ℚ × ℚ) (h : calcPrice raw ssK binVal = some out) :
    ∃ (bc : ℤ → ℚ) (dc : (ℤ → ℚ) × ℚ) (rough : ℤ) (op : List ℚ),
      buildHist raw = some bc ∧ condition bc = some dc ∧
      detector dc.1 ssK binVal = some rough ∧
      voterOp rough (raw.map RawVal.val) = some op ∧
      out = (ratTrunc (refineLast rough op), rough, op.length,
        ((raw.length : ℕ) : ℚ), dc.2) ∧
      (Finset.Ico (0 : ℤ) 2401).sum bc = (raw.length : ℚ) := by
  rw [calcPrice] at h
  simp only [Option.bind_eq_bind, Option.bind_eq_some, Option.pure_def,
    Option.some_inj] at h
  obtain ⟨bc, hbc, dc, hdc, rough, hrough, op, hop, hout⟩ := h
  have hsum : (Finset.Ico (0 : ℤ) 2401).sum bc = (raw.length : ℚ) := by
    have := histFold_sum raw (fun _ => 0) bc hbc
    rw [Finset.sum_const_zero, zero_add] at this
    exact this
  exact ⟨bc, dc, rough, op, hbc, hdc, hrough, hop, by rw [← hout, hsum], hsum⟩

/-! ## Closed forms for single-spike histograms -/

theorem spike_sum (X : ℤ) (w : ℚ) (sl : ℤ) :
    (Finset.range 803).sum (fun n => spikeFn X w (199 + sl + n) * sp n) =
      w * spShift X sl := by
  by_cases hin : 0 ≤ X - 199 - sl ∧ X - 199 - sl < 803
  · set n0 : ℕ := (X - 199 - sl).toNat with hn0
    have hn0cast : (n0 : ℤ) = X - 199 - sl := Int.toNat_of_nonneg hin.1
    have hn0lt : n0 < 803 := by omega
    rw [Finset.sum_eq_single n0]
    · rw [spikeFn, Function.update_apply, if_pos (by omega), spShift, if_pos hin]
    · intro b hb hbne
      rw [spikeFn, Function.update_apply, if_neg, zero_mul]
      intro he
      exact hbne (by omega)
    · intro habs
      exact absurd (Finset.mem_range.mpr hn0lt) habs
  · rw [spShift, if_neg hin, mul_zero]
    apply Finset.sum_eq_zero
    intro b hb
    have hblt := Finset.mem_range.mp hb
    rw [spikeFn, Function.update_apply, if_neg, zero_mul]
    intro he
    exact hin (by omega)

theorem scoreAt_spike (X : ℤ) (w : ℚ) (sl : ℤ) :
    scoreAt (spikeFn X w) wSsK sl = w * spShift X sl := by
  rw [scoreAt]
  have hsss : (Finset.range 803).sum (fun n => spikeFn X w (199 + sl + n) * wSsK n) = 0 :=
    Finset.sum_eq_zero (fun b _ => by rw [wSsK, mul_zero])
  simp only [hsss, spike_sum, zero_mul, add_zero, ite_self]

theorem neighborScore_spike (X : ℤ) (w : ℚ) (b : ℤ) :
    neighborScore (spikeFn X w) b = w * spShift X b :=
  spike_sum X w b

theorem spShift_eval {X sl : ℤ} (m : ℕ) (hm : X - 199 - sl = m) (hlt : m < 803) :
    spShift X sl = sp m := by
  rw [spShift, if_pos (by omega), hm, Int.toNat_natCast]

theorem spShift_zero {X sl : ℤ} (h : ¬(0 ≤ X - 199 - sl ∧ X - 199 - sl < 803)) :
    spShift X sl = 0 := by
  rw [spShift, if_neg h]

/-! ## First-maximum characterization of the score loop -/

theorem detFold_keep (dens : ℤ → ℚ) (ssK : ℕ → ℚ) (l : List ℤ) :
    ∀ st : ℤ × ℚ × ℚ, (∀ x ∈ l, scoreAt dens ssK x ≤ st.2.1) →
      (l.foldl (detStep dens ssK) st).1 = st.1 ∧
        (l.foldl (detStep dens ssK) st).2.1 = st.2.1 := by
  induction l with
  | nil => intro st _; exact ⟨rfl, rfl⟩
  | cons x rest ih =>
    intro st hall
    rw [List.foldl_cons, detStep,
      if_neg (not_lt.mpr (hall x (List.mem_cons_self ..)))]
    exact ih (st.1, st.2.1, st.2.2 + scoreAt dens ssK x)
      (fun y hy => hall y (List.mem_cons_of_mem _ hy))

theorem detFold_lt (dens : ℤ → ℚ) (ssK : ℕ → ℚ) (l : List ℤ) (m : ℚ) :
    ∀ st : ℤ × ℚ × ℚ, st.2.1 < m → (∀ x ∈ l, scoreAt dens ssK x < m) →
      (l.foldl (detStep dens ssK) st).2.1 < m := by
  induction l with
  | nil => intro st h _; exact h
  | cons x rest ih =>
    intro st h hall
    rw [List.foldl_cons, detStep]
    split
    · exact ih _ (hall x (List.mem_cons_self ..))
        (fun y hy => hall y (List.mem_cons_of_mem _ hy))
    · exact ih _ h (fun y hy => hall y (List.mem_cons_of_mem _ hy))

/-- If the shift list splits as `l1 ++ j :: l2` with every score in
`l1` strictly below `score j`, `score j` positive, and every score in
`l2` at most `score j`, then the loop selects `j` with best score
`score j` (the first maximum wins under the strict `sco > bss`
update). -/
theorem detFold_firstmax (dens : ℤ → ℚ) (ssK : ℕ → ℚ) (l1 l2 : List ℤ) (j : ℤ)
    (hsl : slList = l1 ++ j :: l2)
    (hpre : ∀ x ∈ l1, scoreAt dens ssK x < scoreAt dens ssK j)
    (hpos : 0 < scoreAt dens ssK j)
    (hpost : ∀ x ∈ l2, scoreAt dens ssK x ≤ scoreAt dens ssK j) :
    (detFold dens ssK).1 = j ∧ (detFold dens ssK).2.1 = scoreAt dens ssK j := by
  rw [detFold, hsl, List.foldl_append, List.foldl_cons]
  have h1 : (l1.foldl (detStep dens ssK) (0, 0, 0)).2.1 < scoreAt dens ssK j :=
    detFold_lt dens ssK l1 _ (0, 0, 0) hpos hpre
  rw [detStep, if_pos h1]
  exact detFold_keep dens ssK l2 _ (fun x hx => hpost x hx)

theorem list_sum_lt_of_exists {l : List ℚ} {B : ℚ}
    (hall : ∀ x ∈ l, x ≤ B) (hex : ∃ x ∈ l, x < B) : l.sum < l.length * B := by
  induction l with
  | nil => rcases hex with ⟨x, hx, -⟩; cases hx
  | cons y rest ih =>
    rw [List.sum_cons, List.length_cons]
    have hrle : rest.sum ≤ rest.length * B :=
      list_sum_le_length_mul (fun x hx => hall x (List.mem_cons_of_mem _ hx))
    rcases hex with ⟨x, hx, hxlt⟩
    rcases List.mem_cons.mp hx with rfl | hmem
    · push_cast; nlinarith
    · have := ih (fun z hz => hall z (List.mem_cons_of_mem _ hz)) ⟨x, hmem, hxlt⟩
      have hyB := hall y (List.mem_cons_self ..)
      push_cast
      nlinarith

/-- Strict version of the mean bound: when some shift scores strictly
below the best, the mean is strictly below the best. -/
theorem detFold_ts_lt (dens : ℤ → ℚ) (ssK : ℕ → ℚ)
    (hex : ∃ sl ∈ slList, scoreAt dens ssK sl < (detFold dens ssK).2.1) :
    (detFold dens ssK).2.2 / 342 < (detFold dens ssK).2.1 := by
  have hts : (detFold dens ssK).2.2 = (slList.map (scoreAt dens ssK)).sum := by
    rw [detFold, detFold_ts]
    exact zero_add _
  have hall : ∀ x ∈ slList.map (scoreAt dens ssK), x ≤ (detFold dens ssK).2.1 := by
    intro x hx
    rcases List.mem_map.mp hx with ⟨sl, hsl, rfl⟩
    rw [detFold]
    exact detFold_bss_ge dens ssK slList (0, 0, 0) sl hsl
  have hex2 : ∃ x ∈ slList.map (scoreAt dens ssK), x < (detFold dens ssK).2.1 := by
    rcases hex with ⟨sl, hsl, hlt⟩
    exact ⟨scoreAt dens ssK sl, List.mem_map.mpr ⟨sl, hsl, rfl⟩, hlt⟩
  have hlt := list_sum_lt_of_exists hall hex2
  rw [List.length_map, slList_length] at hlt
  push_cast at hlt
  rw [hts, div_lt_iff₀ (by norm_num : (0:ℚ) < 342)]
  linarith

/-- Evaluation of the shift detector at the constant bin value `1/200`:
whatever the selected shift, both reciprocal bin prices are `20000`,
so the weighted blend is exactly `20000` whenever the stage completes;
it completes because `a1 > 0` under the strict-mean hypothesis. -/
theorem detector_eval (dens : ℤ → ℚ) (ssK : ℕ → ℚ) (bss : ℚ)
    (hf2 : (detFold dens ssK).2.1 = bss)
    (hts : (detFold dens ssK).2.2 / 342 < bss) :
    detector dens ssK wBinVal = some 20000 := by
  have hpAll : ∀ i : ℤ, pydiv 100 (wBinVal i) = some 20000 := by
    intro i
    rw [wBinVal, pydiv]
    norm_num
  simp only [detector, hf2, hpAll, Option.bind_eq_bind, Option.some_bind]
  set avs := (detFold dens ssK).2.2 / 342 with havs
  set a1 := bss - avs with ha1
  set a2 := |max (neighborScore dens ((detFold dens ssK).1 + 1))
    (neighborScore dens ((detFold dens ssK).1 - 1)) - avs| with ha2
  have ha1pos : 0 < a1 := by rw [ha1]; linarith
  have ha2nn : 0 ≤ a2 := abs_nonneg _
  have hane : a1 + a2 ≠ 0 := by linarith
  have hw1 : pydiv a1 (a1 + a2) = some (a1 / (a1 + a2)) := by
    rw [pydiv, if_neg hane]
  have hw2 : pydiv a2 (a1 + a2) = some (a2 / (a1 + a2)) := by
    rw [pydiv, if_neg hane]
  simp only [hw1, hw2, Option.some_bind, Option.pure_def, Option.some_inj]
  have hsum : a1 / (a1 + a2) * 20000 + a2 / (a1 + a2) * 20000 = 20000 := by
    rw [← add_mul, div_add_div_same, div_self hane, one_mul]
  rw [hsum]
  have h20000 : (20000 : ℚ) = ((20000 : ℤ) : ℚ) := by norm_num
  rw [h20000, ratTrunc_intCast]

/-! ## Concrete detector run for the C10 witness -/

theorem det10_score_j : scoreAt wDens10 wSsK 0 = sp 401 := by
  rw [wDens10, scoreAt_spike, spShift_eval 401 (by norm_num) (by norm_num), one_mul]

theorem det10_fold :
    (detFold wDens10 wSsK).1 = 0 ∧ (detFold wDens10 wSsK).2.1 = sp 401 := by
  have hsplit : slList = List.map (fun (k : ℕ) => (k : ℤ) - 141) (List.range 141) ++
      (0 : ℤ) :: List.map (fun (k : ℕ) => (k : ℤ) + 1) (List.range 200) := by
    with_unfolding_all decide
  have hlt : ∀ m ∈ Finset.Icc (402 : ℕ) 542, sp m < sp 401 := by
    with_unfolding_all decide
  have hle : ∀ m ∈ Finset.Icc (201 : ℕ) 400, sp m ≤ sp 401 := by
    with_unfolding_all decide
  have h := detFold_firstmax wDens10 wSsK _ _ 0 hsplit ?_ ?_ ?_
  · rw [det10_score_j] at h
    exact h
  · intro x hx
    rcases List.mem_map.mp hx with ⟨k, hk, rfl⟩
    have hk141 := List.mem_range.mp hk
    rw [det10_score_j, wDens10, scoreAt_spike, one_mul,
      spShift_eval (542 - k) (by push_cast; omega) (by omega)]
    exact hlt _ (Finset.mem_Icc.mpr ⟨by omega, by omega⟩)
  · rw [det10_score_j]
    with_unfolding_all decide
  · intro x hx
    rcases List.mem_map.mp hx with ⟨k, hk, rfl⟩
    have hk200 := List.mem_range.mp hk
    rw [det10_score_j, wDens10, scoreAt_spike, one_mul,
      spShift_eval (400 - k) (by push_cast; omega) (by omega)]
    exact hle _ (Finset.mem_Icc.mpr ⟨by omega, by omega⟩)

theorem det10_ts :
    (detFold wDens10 wSsK).2.2 / 342 < sp 401 := by
  have hex : ∃ sl ∈ slList, scoreAt wDens10 wSsK sl < (detFold wDens10 wSsK).2.1 := by
    refine ⟨1, by with_unfolding_all decide, ?_⟩
    rw [det10_fold.2, wDens10, scoreAt_spike, one_mul,
      spShift_eval 400 (by norm_num) (by norm_num)]
    with_unfolding_all decide
  have h := detFold_ts_lt wDens10 wSsK hex
  rw [det10_fold.2] at h
  exact h

theorem det10_run : detector wDens10 wSsK wBinVal = some 20000 :=
  detector_eval wDens10 wSsK (sp 401) det10_fold.2 det10_ts

/-- C10, witness: the detector at the spike histogram, the zero smooth
kernel and the constant bin value `1/200` completes with rough price
`20000`, and the theorem gives `1 ≤ 20000`. -/
theorem c10_witness :
    (∀ i : ℤ, 459 ≤ i → i ≤ 802 → 0 < wBinVal i ∧ wBinVal i ≤ 1) ∧
      detector wDens10 wSsK wBinVal = some 20000 ∧ (1 : ℤ) ≤ 20000 := by
  have hb : ∀ i : ℤ, 459 ≤ i → i ≤ 802 → 0 < wBinVal i ∧ wBinVal i ≤ 1 := by
    intro i _ _
    rw [wBinVal]
    norm_num
  exact ⟨hb, det10_run,
    c10_rough_price_positive wDens10 wSsK wBinVal hb 20000 det10_run⟩

/-! ## Concrete conditioner run for the C4 witness -/

theorem wRaw4_hist : buildHist wRaw4 = some wBc4 := by
  have hbin : binOf (3 / 2 : ℚ) = some 1502 := by with_unfolding_all decide
  have hlpos : (⟨63 / 2, 3 / 2⟩ : RawVal).lpos = 3 / 2 := rfl
  simp only [buildHist, wRaw4, List.foldlM_cons, List.foldlM_nil, histStep,
    hlpos, hbin, Option.map_some', Option.pure_def, Option.some_bind]
  rw [wBc4, spikeFn]
  norm_num

theorem wBc4_cs :
    (Finset.Ico (201 : ℤ) 1601).sum (repairBins (zeroTails wBc4)) = 1 := by
  have hrep : ∀ n, repairBins (zeroTails wBc4) n = wBc4 n := by
    intro n
    rw [wBc4, spikeFn]
    exact repairSpike 1501 1 (by norm_num) (by norm_num)
      (by with_unfolding_all decide) n
  rw [Finset.sum_congr rfl (fun n _ => hrep n), wBc4, spikeFn]
  exact sumIco_spike 201 1601 1501 1 (by norm_num) (by norm_num)

/-- C4, witness: the single output of value `31.5` lands in bin
`1501`, giving window sum `cs = 1 > 0`, and the theorem's conclusions
hold for it. -/
theorem c4_witness :
    buildHist wRaw4 = some wBc4 ∧
      0 < (Finset.Ico (201 : ℤ) 1601).sum (repairBins (zeroTails wBc4)) ∧
      (∃ dens : ℤ → ℚ,
        condition wBc4 =
          some (dens, (Finset.Ico (201 : ℤ) 1601).sum (repairBins (zeroTails wBc4))) ∧
        (∀ n, 201 ≤ n → n < 1601 → 0 ≤ dens n ∧ dens n ≤ 0.008) ∧
        (Finset.Ico (201 : ℤ) 1601).sum
          (fun n => repairBins (zeroTails wBc4) n /
            (Finset.Ico (201 : ℤ) 1601).sum (repairBins (zeroTails wBc4))) = 1 ∧
        (Finset.Ico (201 : ℤ) 1601).sum dens ≤ 1) := by
  have hcs : 0 < (Finset.Ico (201 : ℤ) 1601).sum (repairBins (zeroTails wBc4)) := by
    rw [wBc4_cs]
    norm_num
  exact ⟨wRaw4_hist, hcs, c4_conditioner_invariants wRaw4 wBc4 wRaw4_hist hcs⟩

/-! ## Concrete full-pipeline run for the C9 witness -/

theorem wRaw9_hist : buildHist wRaw9 = some wBc9 := by
  have hbin : binOf (-9 / 2 : ℚ) = some 302 := by with_unfolding_all decide
  have hlpos : (⟨316 / 10000000, -9 / 2⟩ : RawVal).lpos = -9 / 2 := rfl
  simp only [buildHist, wRaw9, List.foldlM_cons, List.foldlM_nil, histStep,
    hlpos, hbin, Option.map_some', Option.pure_def, Option.some_bind]
  rw [wBc9, spikeFn]
  norm_num

theorem wBc9_cond : condition wBc9 = some (wDens9, 1) := by
  have hrepf : repairBins (zeroTails wBc9) = wBc9 := by
    funext n
    rw [wBc9, spikeFn]
    exact repairSpike 301 1 (by norm_num) (by norm_num)
      (by with_unfolding_all decide) n
  have hcs : (Finset.Ico (201 : ℤ) 1601).sum wBc9 = 1 := by
    rw [wBc9, spikeFn]
    exact sumIco_spike 201 1601 301 1 (by norm_num) (by norm_num)
  rw [condition]
  simp only [hrepf, hcs]
  rw [if_neg (by norm_num : (1 : ℚ) ≠ 0)]
  congr 1
  refine Prod.ext ?_ rfl
  funext n
  simp only [wBc9, wDens9, spikeFn, Function.update_apply]
  by_cases hn : n = 301
  · subst hn
    rw [if_pos (by norm_num), if_pos rfl, if_pos rfl]
    norm_num
  · rw [if_neg hn, if_neg hn]
    by_cases hw : 201 ≤ n ∧ n < 1601
    · rw [if_pos hw]
      norm_num
    · rw [if_neg hw]

theorem det9_score_j : scoreAt wDens9 wSsK (-99) = 1 / 125 * sp 201 := by
  rw [wDens9, scoreAt_spike, spShift_eval 201 (by norm_num) (by norm_num)]

theorem det9_fold :
    (detFold wDens9 wSsK).1 = -99 ∧ (detFold wDens9 wSsK).2.1 = 1 / 125 * sp 201 := by
  have hsplit : slList = List.map (fun (k : ℕ) => (k : ℤ) - 141) (List.range 42) ++
      (-99 : ℤ) :: List.map (fun (k : ℕ) => (k : ℤ) - 98) (List.range 299) := by
    with_unfolding_all decide
  have hlt : ∀ m ∈ Finset.Icc (202 : ℕ) 243, sp m < sp 201 := by
    with_unfolding_all decide
  have hle : ∀ m ∈ Finset.Icc (0 : ℕ) 200, sp m ≤ sp 201 := by
    with_unfolding_all decide
  have hsp201 : (0 : ℚ) < sp 201 := by with_unfolding_all decide
  have h := detFold_firstmax wDens9 wSsK _ _ (-99) hsplit ?_ ?_ ?_
  · rw [det9_score_j] at h
    exact h
  · intro x hx
    rcases List.mem_map.mp hx with ⟨k, hk, rfl⟩
    have hk42 := List.mem_range.mp hk
    rw [det9_score_j, wDens9, scoreAt_spike,
      spShift_eval (243 - k) (by push_cast; omega) (by omega)]
    exact (mul_lt_mul_left (by norm_num : (0:ℚ) < 1 / 125)).mpr
      (hlt _ (Finset.mem_Icc.mpr ⟨by omega, by omega⟩))
  · rw [det9_score_j]
    exact mul_pos (by norm_num) hsp201
  · intro x hx
    rcases List.mem_map.mp hx with ⟨k, hk, rfl⟩
    have hk299 := List.mem_range.mp hk
    rw [det9_score_j, wDens9, scoreAt_spike]
    by_cases hk2 : k ≤ 200
    · rw [spShift_eval (200 - k) (by push_cast; omega) (by omega)]
      exact (mul_le_mul_left (by norm_num : (0:ℚ) < 1 / 125)).mpr
        (hle _ (Finset.mem_Icc.mpr ⟨by omega, by omega⟩))
    · rw [spShift_zero (by push_cast; omega), mul_zero]
      exact mul_nonneg (by norm_num) hsp201.le

theorem det9_ts :
    (detFold wDens9 wSsK).2.2 / 342 < 1 / 125 * sp 201 := by
  have hex : ∃ sl ∈ slList, scoreAt wDens9 wSsK sl < (detFold wDens9 wSsK).2.1 := by
    refine ⟨0, by with_unfolding_all decide, ?_⟩
    rw [det9_fold.2, wDens9, scoreAt_spike,
      spShift_eval 102 (by norm_num) (by norm_num)]
    with_unfolding_all decide
  have h := detFold_ts_lt wDens9 wSsK hex
  rw [det9_fold.2] at h
  exact h

theorem det9_run : detector wDens9 wSsK wBinVal = some 20000 :=
  detector_eval wDens9 wSsK _ det9_fold.2 det9_ts

theorem wRaw9_voter : voterOp 20000 (List.map RawVal.val wRaw9) = some [] := by
  with_unfolding_all decide

theorem calcPrice_unfold (raw : List RawVal) (ssK : ℕ → ℚ) (binVal : ℤ → ℚ) :
    calcPrice raw ssK binVal =
      (buildHist raw).bind (fun bc =>
        (condition bc).bind (fun dc =>
          (detector dc.1 ssK binVal).bind (fun rough =>
            (voterOp rough (raw.map RawVal.val)).bind (fun op =>
              some (ratTrunc (refineLast rough op), rough, op.length,
                (Finset.Ico (0 : ℤ) 2401).sum bc, dc.2))))) := rfl

/-- Reducing a bind whose scrutinee is a literal `some`. -/
theorem bind_some_eq {α β : Type} (a : α) (f : α → Option β) :
    (some a).bind f = f a := rfl

/-- Full concrete evaluation of the pipeline on the one-spike input `wRaw9`. -/
theorem wRaw9_calc :
    calcPrice wRaw9 wSsK wBinVal = some (20000, 20000, 0, 1, 1) := by
  have hsum : (Finset.Ico (0 : ℤ) 2401).sum wBc9 = 1 := by
    rw [wBc9, spikeFn]; exact sumIco_spike 0 2401 301 1 (by norm_num) (by norm_num)
  calc calcPrice wRaw9 wSsK wBinVal
      = (some wBc9).bind (fun bc =>
          (condition bc).bind (fun dc =>
            (detector dc.1 wSsK wBinVal).bind (fun rough =>
              (voterOp rough (wRaw9.map RawVal.val)).bind (fun op =>
                some (ratTrunc (refineLast rough op), rough, op.length,
                  (Finset.Ico (0 : ℤ) 2401).sum bc, dc.2))))) := by
        rw [calcPrice_unfold, wRaw9_hist]
    _ = (condition wBc9).bind (fun dc =>
          (detector dc.1 wSsK wBinVal).bind (fun rough =>
            (voterOp rough (wRaw9.map RawVal.val)).bind (fun op =>
              some (ratTrunc (refineLast rough op), rough, op.length,
                (Finset.Ico (0 : ℤ) 2401).sum wBc9, dc.2)))) := by
        rw [bind_some_eq]
    _ = (some ((wDens9, 1) : (ℤ → ℚ) × ℚ)).bind (fun dc =>
          (detector dc.1 wSsK wBinVal).bind (fun rough =>
            (voterOp rough (wRaw9.map RawVal.val)).bind (fun op =>
              some (ratTrunc (refineLast rough op), rough, op.length,
                (Finset.Ico (0 : ℤ) 2401).sum wBc9, dc.2)))) := by
        rw [wBc9_cond]
    _ = (detector wDens9 wSsK wBinVal).bind (fun rough =>
          (voterOp rough (wRaw9.map RawVal.val)).bind (fun op =>
            some (ratTrunc (refineLast rough op), rough, op.length,
              (Finset.Ico (0 : ℤ) 2401).sum wBc9, 1))) := by
        rw [bind_some_eq]
    _ = (some (20000 : ℤ)).bind (fun rough =>
          (voterOp rough (wRaw9.map RawVal.val)).bind (fun op =>
            some (ratTrunc (refineLast rough op), rough, op.length,
              (Finset.Ico (0 : ℤ) 2401).sum wBc9, 1))) := by
        rw [det9_run]
    _ = (voterOp 20000 (wRaw9.map RawVal.val)).bind (fun op =>
          some (ratTrunc (refineLast 20000 op), 20000, op.length,
            (Finset.Ico (0 : ℤ) 2401).sum wBc9, 1)) := rfl
    _ = (some ([] : List ℚ)).bind (fun op =>
          some (ratTrunc (refineLast 20000 op), 20000, op.length,
            (Finset.Ico (0 : ℤ) 2401).sum wBc9, 1)) := by
        rw [wRaw9_voter]
    _ = some (ratTrunc (refineLast 20000 []), (20000 : ℤ), (0 : ℕ),
          (Finset.Ico (0 : ℤ) 2401).sum wBc9, (1 : ℚ)) := rfl
    _ = some (20000, 20000, 0, 1, 1) := by
        rw [refineLast_nil 20000, hsum]

/-- C9 witness: on the concrete single-value input `wRaw9` the pipeline
returns the tuple `(20000, 20000, 0, 1, 1)`, and each component of that
tuple is produced by the stage named in the claim. -/
theorem c9_witness :
    calcPrice wRaw9 wSsK wBinVal = some (20000, 20000, 0, 1, 1) ∧
      (∃ (bc : ℤ → ℚ) (dc : (ℤ → ℚ) × ℚ) (rough : ℤ) (op : List ℚ),
        buildHist wRaw9 = some bc ∧ condition bc = some dc ∧
        detector dc.1 wSsK wBinVal = some rough ∧
        voterOp rough (wRaw9.map RawVal.val) = some op ∧
        ((20000 : ℤ), (20000 : ℤ), (0 : ℕ), (1 : ℚ), (1 : ℚ)) =
          (ratTrunc (refineLast rough op), rough, op.length,
            ((wRaw9.length : ℕ) : ℚ), dc.2) ∧
        (Finset.Ico (0 : ℤ) 2401).sum bc = (wRaw9.length : ℚ)) :=
  ⟨wRaw9_calc, c9_output_tuple wRaw9 wSsK wBinVal _ wRaw9_calc⟩

end PocketOracle
